import Mathlib

/-!
Verification of the DCache repository against its natural-language
specification.

The development shallowly embeds the Go sources:
* `lru` — the bounded LRU cache (`lru/lru.go`);
* `consistenthash` — the consistent-hash ring (`consistenthash/consistenthash.go`);
* `dcache` — `ByteView`, the concurrent cache shell, and the `Group`
  read-through flow (`dcache/byteview.go`, `dcache/dcache.go`);
* `singleflight` — the request-coalescing coordinator, whose source file is
  not in the repository snapshot and is therefore modelled from the spec.

Go's `container/list` doubly linked list is embedded as a Lean `List` whose
head is the list front (most recently used end); the `map[string]*list.Element`
index is represented implicitly by key lookup in that list, which is faithful
under the invariant (proved below) that each present key occupies exactly one
position.  The eviction callback `OnEvicted` is embedded by having the mutating
operations additionally return the list of (key, value) pairs the callback was
invoked on, in invocation order.  `int64` counters are embedded as `Int`.
-/

namespace lru

/-- Entry `entry` from lru.go: the pair stored in each linked-list node. -/
structure Entry (V : Type) where
  key : String
  value : V
  deriving Repr, DecidableEq

variable {V : Type} (vlen : V → Nat)

/-- Byte footprint of one entry: `len(kv.key) + kv.value.Len()`. -/
def entryBytes (e : Entry V) : Int := (e.key.length : Int) + (vlen e.value : Int)

/-- Total byte footprint of a list of entries. -/
def footprint : List (Entry V) → Int
  | [] => 0
  | e :: rest => entryBytes vlen e + footprint rest

/-- Lookup in the `cache` map: the (unique, under the invariant) entry with
the given key, here found by scanning the front-first list. -/
def findEntry : List (Entry V) → String → Option (Entry V)
  | [], _ => none
  | e :: rest, k => if e.key = k then some e else findEntry rest k

/-- Remove the first entry carrying the given key (the linked-list node the
`cache` map points to). -/
def removeKey : List (Entry V) → String → List (Entry V)
  | [], _ => []
  | e :: rest, k => if e.key = k then rest else e :: removeKey rest k

/-- The `Cache` struct from lru.go.  `ll` is the doubly linked list, head =
front = most recently used.  The `cache` map is implicit (key lookup in `ll`),
and `OnEvicted` is modelled by returning eviction lists. -/
structure Cache (V : Type) where
  maxBytes : Int
  nbyte : Int
  ll : List (Entry V)
  deriving Repr, DecidableEq

/-- `New`: empty cache with the given byte bound. -/
def New (maxBytes : Int) : Cache V :=
  { maxBytes := maxBytes, nbyte := 0, ll := [] }

/-- `Cache.Get`: on a hit, move the node to the front and return its value;
returns the (possibly reordered) cache alongside. -/
def Get (c : Cache V) (key : String) : Option V × Cache V :=
  match findEntry c.ll key with
  | some e => (some e.value, { c with ll := e :: removeKey c.ll key })
  | none => (none, c)

/-- `Cache.RemoveOldest`: drop the back node if any, decrement `nbyte`, and
report the callback invocation.  The second component lists the (key, value)
pairs `OnEvicted` fired on (empty or a singleton). -/
def RemoveOldest (c : Cache V) : Cache V × List (String × V) :=
  match c.ll.getLast? with
  | some e =>
      ({ c with
          ll := c.ll.dropLast,
          nbyte := c.nbyte - entryBytes vlen e },
       [(e.key, e.value)])
  | none => (c, [])

/-- The `for c.maxBytes != 0 && c.nbyte > c.maxBytes { c.RemoveOldest() }`
loop at the end of `Cache.Add`, run with explicit fuel.  `Add` supplies fuel
`= c.ll.length`, which is exhausted only after the list has been emptied, so on
any state whose counter equals its footprint the embedded loop agrees with the
Go loop (which in those states always terminates). -/
def evictLoop : Nat → Cache V → Cache V × List (String × V)
  | 0, c => (c, [])
  | fuel + 1, c =>
      if c.maxBytes ≠ 0 ∧ c.maxBytes < c.nbyte then
        let step := RemoveOldest vlen c
        let rest := evictLoop fuel step.1
        (rest.1, step.2 ++ rest.2)
      else (c, [])

/-- `Cache.Add`: update in place and move to front when the key is present,
else push a new front entry; then evict from the back while over the bound. -/
def Add (c : Cache V) (key : String) (value : V) : Cache V × List (String × V) :=
  let c1 : Cache V :=
    match findEntry c.ll key with
    | some e =>
        { c with
            nbyte := c.nbyte - (vlen e.value : Int) + (vlen value : Int),
            ll := { key := key, value := value } :: removeKey c.ll key }
    | none =>
        { c with
            ll := { key := key, value := value } :: c.ll,
            nbyte := c.nbyte + (key.length : Int) + (vlen value : Int) }
  evictLoop vlen c1.ll.length c1

/-- `Cache.Len`: number of live entries. -/
def Len (c : Cache V) : Nat := c.ll.length

end lru

namespace consistenthash

/-!
Embedding of `consistenthash/consistenthash.go`.  A `Hash` is a function from
the bytes of a string to `uint32`; since Go's `int(uint32-value)` is always a
non-negative integer, the hash is embedded as `String → Nat` and ring keys are
those values cast to `Int` (the Go `keys []int`).  The Go `map[int]string` is
embedded as an association list in which an insertion prepends its pair, so a
lookup finds the most recent insertion (Go map overwrite semantics), and a
lookup of an absent key yields `""` (the Go zero value).  `sort.Ints` is
embedded as insertion sort.
-/

/-- Overwriting insertion into the `hashMap`. -/
def mapInsert (m : List (Int × String)) (h : Int) (v : String) : List (Int × String) :=
  (h, v) :: m

/-- Go map read `m.hashMap[h]`, defaulting to `""` when absent. -/
def mapLookup : List (Int × String) → Int → String
  | [], _ => ""
  | (h', v) :: rest, h => if h' = h then v else mapLookup rest h

/-- One step of insertion sort on `Int`. -/
def insertSorted (x : Int) : List Int → List Int
  | [] => [x]
  | y :: ys => if x ≤ y then x :: y :: ys else y :: insertSorted x ys

/-- `sort.Ints`: sort a list of integers ascending. -/
def sortInts (l : List Int) : List Int := l.foldr insertSorted []

/-- The `Map` struct: replica count, sorted ring keys, hash function, and the
virtual-node-hash to real-node mapping. -/
structure Map where
  replicas : Nat
  keys : List Int
  hash : String → Nat
  hashMap : List (Int × String)

/-- `New`: an empty ring (the `crc32.ChecksumIEEE` default for a nil hash is
the caller's concern here; callers pass their hash explicitly). -/
def New (replicas : Nat) (hash : String → Nat) : Map :=
  { replicas := replicas, keys := [], hash := hash, hashMap := [] }

/-- Body of `Map.Add`'s inner loop: one virtual node `i` of real node `key`
(`hash := int(m.hash([]byte(strconv.Itoa(i) + key)))`; record `hash → key`;
append `hash` to `keys`). -/
def addVirtual (key : String) (a : Map) (i : Nat) : Map :=
  let h : Int := (a.hash (toString i ++ key) : Nat)
  { a with hashMap := mapInsert a.hashMap h key, keys := a.keys ++ [h] }

/-- Body of `Map.Add`'s outer loop: all `replicas` virtual nodes of one real
node. -/
def addPeer (a : Map) (key : String) : Map :=
  (List.range a.replicas).foldl (addVirtual key) a

/-- `Map.Add`: for each real node name and each `i < replicas`, hash
`strconv.Itoa(i) + key`, record the mapping, append to `keys`; finally sort
`keys`. -/
def Map.Add (m : Map) (ks : List String) : Map :=
  let m' := ks.foldl addPeer m
  { m' with keys := sortInts m'.keys }

/-- The `for _, k := range m.keys { if k >= hash ... }` scan: first ring key
(in list order) at least `h`. -/
def findGE : List Int → Int → Option Int
  | [], _ => none
  | k :: rest, h => if k ≥ h then some k else findGE rest h

/-- `Map.Get`: empty ring yields `""`; a hash beyond the last ring key wraps
to the first; otherwise the first ring key `≥ hash` owns the key. -/
def Map.Get (m : Map) (key : String) : String :=
  match m.keys with
  | [] => ""
  | k0 :: rest =>
      let h : Int := (m.hash key : Nat)
      if h > (k0 :: rest).getLast (List.cons_ne_nil k0 rest) then
        mapLookup m.hashMap k0
      else
        match findGE (k0 :: rest) h with
        | some k => mapLookup m.hashMap k
        | none => ""

/-- `strconv.Atoi` with its error ignored (`i, _ := strconv.Atoi(...)`), as the
test's hash function uses it: the numeric value of a string of decimal digits,
and `0` (the Go zero value left in `i`) when the string fails to parse. -/
def atoi (s : String) : Nat :=
  match s.data with
  | [] => 0
  | cs => if cs.all Char.isDigit then cs.foldl (fun n c => n * 10 + (c.toNat - 48)) 0 else 0

/-- The hash function of `TestHashing`: `uint32(Atoi(string(key)))`. -/
def testHash (s : String) : Nat := atoi s % 4294967296

end consistenthash

namespace dcache

/-!
Embedding of `dcache/byteview.go` and `dcache/dcache.go`.

Byte slices are embedded as `List Nat` (one `Nat` per byte).  A fallible Go
call returning `(T, error)` is embedded as `Except String T` (the error text),
matching how callers use it: on a non-nil error the accompanying value is
discarded.  The `Getter` loader and the `PeerGetter` transport client are
interfaces and are embedded as functions; a `PeerPicker` is embedded as a
function returning `some client` exactly when Go's `PickPeer` returns
`(client, true)` — in particular `none` both when no peer is responsible and
when the ring maps the key to `self`.

`Group` methods are embedded in their sequential (uncontended) semantics: a
`singleflight.Do(key, fn)` with no in-flight call for `key` simply executes
`fn` (the concurrent coalescing behaviour is verified separately on the
`singleflight` model below).  Each operation returns, besides its Go results,
the updated group state and the trace of upstream calls it made, so that
"the loader was not invoked" is expressible.

The mutex-guarded cache shell (`cache` with `add`/`get`) is not part of the
repository snapshot; its two operations are modelled from the spec —
"Operations `add` and `get` take the mutex, lazily construct the underlying
LRU on first `add`, and delegate.  `get` returns a present flag so that
absence of the underlying LRU is indistinguishable from a miss."
-/

/-- `ByteView` from byteview.go: an immutable view of bytes.  Defensive
copying (`cloneBytes`) is the identity on immutable Lean lists. -/
structure ByteView where
  b : List Nat
  deriving Repr, DecidableEq

/-- `ByteView.Len`. -/
def ByteView.Len (v : ByteView) : Nat := v.b.length

/-- Modelled from the spec: the `cache` concurrent shell (its source file is
absent from the snapshot).  A mutex-guarded, lazily initialised LRU:
`lru = none` until the first `add`. -/
structure cache where
  cacheBytes : Int
  lru : Option (lru.Cache ByteView)
  deriving Repr, DecidableEq

/-- Modelled from the spec: shell `add` — lazily construct the LRU with the
configured byte bound, then delegate to `lru.Add`. -/
def cache.add (c : cache) (key : String) (value : ByteView) : cache :=
  let l := c.lru.getD (lru.New c.cacheBytes)
  { c with lru := some (lru.Add ByteView.Len l key value).1 }

/-- Modelled from the spec: shell `get` — a missing underlying LRU is
indistinguishable from a miss; otherwise delegate to `lru.Get` (which
promotes the entry). -/
def cache.get (c : cache) (key : String) : Option ByteView × cache :=
  match c.lru with
  | none => (none, c)
  | some l =>
      let r := lru.Get l key
      (r.1, { c with lru := some r.2 })

/-- A `PeerGetter` (transport client): group name and key to value bytes or a
transport error.  The two arguments are the `Request{Group, Key}` fields. -/
def PeerGetter : Type := String → String → Except String (List Nat)

/-- A `PeerPicker`: `PickPeer(key)` as an option, `none` standing for Go's
`(nil, false)` (empty ring or the key's owner is `self`). -/
def PeerPicker : Type := String → Option PeerGetter

/-- The `Group` struct: name, loader, local cache shell, optional picker.
The single-flight coordinator field carries no sequential state. -/
structure Group where
  name : String
  getter : String → Except String (List Nat)
  mainCache : cache
  peers : Option PeerPicker

/-- Upstream calls a `Group` operation makes, for stating non-invocation. -/
inductive Event where
  | loaderCall (key : String)
  | peerCall (key : String) (ok : Bool)
  deriving Repr, DecidableEq

/-- Result of `Get` / `load` / `getLocally`: the returned `(ByteView, error)`
pair, the group state afterwards, and the upstream calls made. -/
structure LoadOut where
  value : ByteView
  err : Option String
  g : Group
  events : List Event

/-- `Group.GetFromPeer`: build the request from group name and key, call the
peer client, wrap successful bytes in a `ByteView`. -/
def Group.GetFromPeer (g : Group) (peer : PeerGetter) (key : String) :
    Except String ByteView :=
  match peer g.name key with
  | .ok bs => .ok { b := bs }
  | .error e => .error e

/-- `Group.getLocally`: run the loader under single-flight; on error return a
zero view and that error; on success clone the bytes, populate the cache. -/
def Group.getLocally (g : Group) (key : String) : LoadOut :=
  match g.getter key with
  | .error e => { value := { b := [] }, err := some e, g := g, events := [.loaderCall key] }
  | .ok bs =>
      let value : ByteView := { b := bs }
      { value := value
        err := none
        g := { g with mainCache := g.mainCache.add key value }
        events := [.loaderCall key] }

/-- `Group.load`: with a picker that selects a remote peer, fetch from the
peer under single-flight; the executor returns `(value, nil)` even when the
fetch failed (logging only), so the caller sees a zero view and a nil error.
Otherwise fall back to `getLocally`. -/
def Group.load (g : Group) (key : String) : LoadOut :=
  match g.peers with
  | some picker =>
      match picker key with
      | some peer =>
          match g.GetFromPeer peer key with
          | .ok value =>
              { value := value, err := none, g := g, events := [.peerCall key true] }
          | .error _ =>
              { value := { b := [] }, err := none, g := g, events := [.peerCall key false] }
      | none => g.getLocally key
  | none => g.getLocally key

/-- `Group.Get`: reject the empty key, consult the local cache, and on a miss
run the load flow. -/
def Group.Get (g : Group) (key : String) : LoadOut :=
  if key = "" then
    { value := { b := [] }, err := some "key is required", g := g, events := [] }
  else
    match g.mainCache.get key with
    | (some v, mc) => { value := v, err := none, g := { g with mainCache := mc }, events := [] }
    | (none, mc) => Group.load { g with mainCache := mc } key

end dcache

namespace singleflight

/-!
Modelled from the spec: the single-flight coordinator (`singleflight.Group`
with `Do(key, fn)`), whose source file is not in the repository snapshot.
Spec §4.4: "Under the mutex, look up the key.  If a Call exists, register as a
waiter, release the mutex, block until its completion signal fires, and return
its shared (value, err).  If no Call exists, create one, publish it, release
the mutex, execute fn, store its result into the Call, fire the completion
signal, re-acquire the mutex, remove the Call from the map, and return the
result."

The model is an interleaving semantics for a single key.  Calls are an
append-only log (`calls`), with `mapEntry` the index, if any, currently
published in the key map.  Each caller thread takes these atomic steps, one
mutex-guarded or signal-guarded region per step:
* `enter` — look up the key: publish a fresh running call and become its
  executor when absent, else register on the published call as a waiter;
* `complete` — the executor runs `fn` (the k-th execution overall returns
  `fnRes k`, so distinct executions are distinguishable), stores the result,
  and fires the completion signal;
* `remove` — the executor deletes the map entry and returns its result;
* `waiterReturn` — a waiter unblocks on a completed call and returns its
  stored result (waiters hold the Call itself, so later map removal does not
  affect them).
-/

/-- Phase of one Call: still executing, or completed with its result. -/
inductive CallPhase (R : Type) where
  | running
  | completed (r : R)
  deriving Repr, DecidableEq

/-- Status of one caller thread of `Do`. -/
inductive TStatus (R : Type) where
  | pre
  | exec (id : Nat)
  | waitingOn (id : Nat)
  | owner (id : Nat) (r : R)
  | done (r : R)
  deriving Repr, DecidableEq

/-- Coordinator state plus caller-thread statuses and an execution counter. -/
structure SFState (R : Type) where
  calls : List (CallPhase R)
  mapEntry : Option Nat
  threads : List (TStatus R)
  execCount : Nat
  deriving Repr, DecidableEq

/-- One scheduling step, naming the thread that moves. -/
inductive Label where
  | enter (t : Nat)
  | complete (t : Nat)
  | remove (t : Nat)
  | waiterReturn (t : Nat)
  deriving Repr, DecidableEq

/-- Initial state: `n` caller threads about to call `Do` on the same key. -/
def init (R : Type) (n : Nat) : SFState R :=
  { calls := [], mapEntry := none, threads := List.replicate n .pre, execCount := 0 }

variable {R : Type}

/-- Guarded small step; `none` when the step is not enabled. -/
def stepFn (fnRes : Nat → R) (s : SFState R) : Label → Option (SFState R)
  | .enter t =>
      match s.threads[t]? with
      | some .pre =>
          match s.mapEntry with
          | some id => some { s with threads := s.threads.set t (.waitingOn id) }
          | none =>
          some
            { s with
                calls := s.calls ++ [.running],
                mapEntry := some s.calls.length,
                threads := s.threads.set t (.exec s.calls.length) }
      | _ => none
  | .complete t =>
      match s.threads[t]? with
      | some (.exec id) =>
          match s.calls[id]? with
          | some .running =>
              let r := fnRes s.execCount
              some
                { s with
                    calls := s.calls.set id (.completed r),
                    threads := s.threads.set t (.owner id r),
                    execCount := s.execCount + 1 }
          | _ => none
      | _ => none
  | .remove t =>
      match s.threads[t]? with
      | some (.owner _ r) =>
          some { s with mapEntry := none, threads := s.threads.set t (.done r) }
      | _ => none
  | .waiterReturn t =>
      match s.threads[t]? with
      | some (.waitingOn id) =>
          match s.calls[id]? with
          | some (.completed r) => some { s with threads := s.threads.set t (.done r) }
          | _ => none
      | _ => none

/-- Run a whole schedule; `none` when some step was not enabled. -/
def run (fnRes : Nat → R) : SFState R → List Label → Option (SFState R)
  | s, [] => some s
  | s, l :: rest =>
      match stepFn fnRes s l with
      | some s' => run fnRes s' rest
      | none => none

/-- No `enter` step occurs in the schedule. -/
def noEnter : List Label → Bool
  | [] => true
  | .enter _ :: _ => false
  | _ :: rest => noEnter rest

/-- Every `enter` precedes every `remove`: the formalisation of "the N `Do`
calls are concurrent" — each caller arrives while the first call is still
published (compare spec §4.4: a key arriving after completion and removal sees
a fresh execution instead). -/
def entersBeforeRemoves : List Label → Bool
  | [] => true
  | .remove _ :: rest => noEnter rest && entersBeforeRemoves rest
  | _ :: rest => entersBeforeRemoves rest

end singleflight

namespace lru

/-!  Invariants of the LRU cache (spec §3 "LRU Cache" and §8). -/

/-- An operation of the LRU interface, for stating invariants over arbitrary
operation sequences. -/
inductive LruOp (V : Type) where
  | add (key : String) (value : V)
  | get (key : String)
  | removeOldest
  deriving Repr, DecidableEq

variable {V : Type} (vlen : V → Nat)

/-- Apply one operation, discarding returned values and eviction reports. -/
def applyOp (c : Cache V) : LruOp V → Cache V
  | .add k v => (Add vlen c k v).1
  | .get k => (Get c k).2
  | .removeOldest => (RemoveOldest vlen c).1

/-- Run an operation sequence from a fresh cache. -/
def runOps (maxBytes : Int) (ops : List (LruOp V)) : Cache V :=
  ops.foldl (applyOp vlen) (New maxBytes)

/-- The spec's LRU invariant: the byte counter equals the live footprint,
each present key has exactly one position, and a positive bound is respected. -/
def Inv (c : Cache V) : Prop :=
  c.nbyte = footprint vlen c.ll ∧ (c.ll.map Entry.key).Nodup ∧
    (0 < c.maxBytes → c.nbyte ≤ c.maxBytes)

theorem entryBytes_nonneg (e : Entry V) : 0 ≤ entryBytes vlen e := by
  have h1 : (0 : Int) ≤ (e.key.length : Int) := Int.ofNat_nonneg _
  have h2 : (0 : Int) ≤ (vlen e.value : Int) := Int.ofNat_nonneg _
  unfold entryBytes; omega

theorem footprint_nonneg (l : List (Entry V)) : 0 ≤ footprint vlen l := by
  induction l with
  | nil => exact le_refl 0
  | cons e rest ih =>
      have := entryBytes_nonneg vlen e
      unfold footprint; omega

theorem footprint_append (l1 l2 : List (Entry V)) :
    footprint vlen (l1 ++ l2) = footprint vlen l1 + footprint vlen l2 := by
  induction l1 with
  | nil => simp [footprint]
  | cons e rest ih =>
      have h1 : footprint vlen ((e :: rest) ++ l2) =
          entryBytes vlen e + footprint vlen (rest ++ l2) := rfl
      have h2 : footprint vlen (e :: rest) = entryBytes vlen e + footprint vlen rest := rfl
      omega

theorem footprint_perm {l1 l2 : List (Entry V)} (h : l1.Perm l2) :
    footprint vlen l1 = footprint vlen l2 := by
  induction h with
  | nil => rfl
  | cons x _ ih => simp only [footprint, ih]
  | swap x y l => simp only [footprint]; omega
  | trans _ _ ih1 ih2 => omega

theorem findEntry_key {l : List (Entry V)} {k : String} {e : Entry V}
    (h : findEntry l k = some e) : e.key = k := by
  induction l with
  | nil => simp [findEntry] at h
  | cons a rest ih =>
      by_cases hk : a.key = k
      · simp [findEntry, hk] at h; rw [← h]; exact hk
      · simp [findEntry, hk] at h; exact ih h

theorem findEntry_perm {l : List (Entry V)} {k : String} {e : Entry V}
    (h : findEntry l k = some e) : (e :: removeKey l k).Perm l := by
  induction l with
  | nil => simp [findEntry] at h
  | cons a rest ih =>
      by_cases hk : a.key = k
      · simp only [findEntry, hk, if_pos rfl] at h
        simp only [removeKey, if_pos hk]
        rw [← Option.some_inj.mp h]
      · simp only [findEntry, hk, if_neg hk] at h
        simp only [removeKey, if_neg hk]
        exact (List.Perm.swap a e (removeKey rest k)).trans ((ih h).cons a)

theorem findEntry_none {l : List (Entry V)} {k : String}
    (h : findEntry l k = none) : ∀ e ∈ l, e.key ≠ k := by
  induction l with
  | nil => intro e he; simp at he
  | cons a rest ih =>
      by_cases hk : a.key = k
      · simp [findEntry, hk] at h
      · simp only [findEntry, if_neg hk] at h
        intro e he
        rcases List.mem_cons.mp he with rfl | hmem
        · exact hk
        · exact ih h e hmem

theorem getLast?_decomp {l : List (Entry V)} {e : Entry V}
    (h : l.getLast? = some e) : l = l.dropLast ++ [e] := by
  cases hl : l with
  | nil => subst hl; simp at h
  | cons a rest =>
      subst hl
      have hne : a :: rest ≠ [] := List.cons_ne_nil a rest
      rw [List.getLast?_eq_getLast _ hne] at h
      have := List.dropLast_append_getLast hne
      rw [Option.some_inj.mp h.symm]
      exact this.symm

end lru

namespace lru

variable {V : Type} (vlen : V → Nat)

theorem evictLoop_succ (fuel : Nat) (c : Cache V) :
    evictLoop vlen (fuel + 1) c =
      if c.maxBytes ≠ 0 ∧ c.maxBytes < c.nbyte then
        ((evictLoop vlen fuel (RemoveOldest vlen c).1).1,
          (RemoveOldest vlen c).2 ++ (evictLoop vlen fuel (RemoveOldest vlen c).1).2)
      else (c, []) := rfl

theorem RemoveOldest_some {c : Cache V} {e : Entry V} (hg : c.ll.getLast? = some e) :
    (RemoveOldest vlen c).1.ll = c.ll.dropLast ∧
      (RemoveOldest vlen c).1.nbyte = c.nbyte - entryBytes vlen e ∧
      (RemoveOldest vlen c).1.maxBytes = c.maxBytes := by
  simp [RemoveOldest, hg]

theorem getLast?_none_iff {l : List (Entry V)} : l.getLast? = none ↔ l = [] := by
  cases l with
  | nil => simp
  | cons a rest =>
      rw [List.getLast?_eq_getLast _ (List.cons_ne_nil a rest)]
      simp

/-- Footprint of a list splits at its last element. -/
theorem footprint_dropLast {c : Cache V} {e : Entry V} (hg : c.ll.getLast? = some e) :
    footprint vlen c.ll.dropLast = footprint vlen c.ll - entryBytes vlen e := by
  have hdecomp : c.ll = c.ll.dropLast ++ [e] := getLast?_decomp hg
  have h1 : footprint vlen (c.ll.dropLast ++ [e]) =
      footprint vlen c.ll.dropLast + footprint vlen [e] := footprint_append vlen _ _
  have h2 : footprint vlen [e] = entryBytes vlen e + 0 := rfl
  have h3 : footprint vlen c.ll = footprint vlen (c.ll.dropLast ++ [e]) := by rw [← hdecomp]
  omega

/-- The eviction loop preserves the bound and counter, removes only a suffix
of the entry list, and (for a positive bound) restores `nbyte ≤ maxBytes`. -/
theorem evictLoop_spec (fuel : Nat) :
    ∀ c : Cache V, c.nbyte = footprint vlen c.ll → c.ll.length ≤ fuel →
      (evictLoop vlen fuel c).1.maxBytes = c.maxBytes ∧
      (evictLoop vlen fuel c).1.nbyte = footprint vlen (evictLoop vlen fuel c).1.ll ∧
      (∃ t, c.ll = (evictLoop vlen fuel c).1.ll ++ t) ∧
      (0 < c.maxBytes → (evictLoop vlen fuel c).1.nbyte ≤ c.maxBytes) := by
  induction fuel with
  | zero =>
      intro c hfoot hlen
      have hnil : c.ll = [] := List.eq_nil_of_length_eq_zero (Nat.le_zero.mp hlen)
      have hz : footprint vlen c.ll = 0 := by rw [hnil]; rfl
      refine ⟨rfl, hfoot, ⟨[], by show c.ll = c.ll ++ []; simp⟩, fun hpos => ?_⟩
      show c.nbyte ≤ c.maxBytes
      omega
  | succ fuel ih =>
      intro c hfoot hlen
      by_cases hcond : c.maxBytes ≠ 0 ∧ c.maxBytes < c.nbyte
      · rw [evictLoop_succ, if_pos hcond]
        cases hg : c.ll.getLast? with
        | none =>
            have hnil : c.ll = [] := getLast?_none_iff.mp hg
            have hro : (RemoveOldest vlen c).1 = c := by simp [RemoveOldest, hg]
            rw [hro]
            exact ih c hfoot (by rw [hnil]; exact Nat.zero_le fuel)
        | some e =>
            obtain ⟨hll_ro, hnb_ro, hmx_ro⟩ := RemoveOldest_some vlen hg
            have hfoot1 : (RemoveOldest vlen c).1.nbyte =
                footprint vlen (RemoveOldest vlen c).1.ll := by
              rw [hll_ro, hnb_ro, footprint_dropLast vlen hg]; omega
            have hlen1 : (RemoveOldest vlen c).1.ll.length ≤ fuel := by
              rw [hll_ro]
              have hdecomp : c.ll = c.ll.dropLast ++ [e] := getLast?_decomp hg
              have : c.ll.length = c.ll.dropLast.length + 1 := by
                conv_lhs => rw [hdecomp]
                simp
              omega
            have hmain := ih (RemoveOldest vlen c).1 hfoot1 hlen1
            refine ⟨by rw [hmain.1, hmx_ro], hmain.2.1, ?_, ?_⟩
            · obtain ⟨t, ht⟩ := hmain.2.2.1
              rw [hll_ro] at ht
              refine ⟨t ++ [e], ?_⟩
              conv_lhs => rw [getLast?_decomp hg]
              rw [ht, List.append_assoc]
            · intro hpos
              have := hmain.2.2.2 (by rw [hmx_ro]; exact hpos)
              rwa [hmx_ro] at this
      · rw [evictLoop_succ, if_neg hcond]
        refine ⟨rfl, hfoot, ⟨[], by simp⟩, fun hpos => ?_⟩
        show c.nbyte ≤ c.maxBytes
        by_contra hlt
        exact hcond ⟨by omega, by omega⟩

/-- If the new front entry itself fits within a nonzero bound (or the bound is
zero = unlimited), the eviction loop never removes it. -/
theorem evictLoop_keeps_head (fuel : Nat) :
    ∀ (c : Cache V) (e : Entry V) (rest : List (Entry V)),
      c.ll = e :: rest → c.nbyte = footprint vlen c.ll →
      (c.maxBytes = 0 ∨ entryBytes vlen e ≤ c.maxBytes) →
      ∃ rest2, (evictLoop vlen fuel c).1.ll = e :: rest2 := by
  induction fuel with
  | zero => intro c e rest hll _ _; exact ⟨rest, hll⟩
  | succ fuel ih =>
      intro c e rest hll hfoot hfit
      by_cases hcond : c.maxBytes ≠ 0 ∧ c.maxBytes < c.nbyte
      · rw [evictLoop_succ, if_pos hcond]
        have hfite : entryBytes vlen e ≤ c.maxBytes := by
          rcases hfit with h0 | hle
          · exact absurd h0 hcond.1
          · exact hle
        have hfr : c.nbyte = entryBytes vlen e + footprint vlen rest := by
          rw [hfoot, hll]; rfl
        have hrest_pos : 0 < footprint vlen rest := by omega
        cases hrest : rest with
        | nil =>
            rw [hrest] at hfr
            have : footprint vlen ([] : List (Entry V)) = 0 := rfl
            omega
        | cons r rs =>
            subst hrest
            have hg : c.ll.getLast? = some ((r :: rs).getLast (List.cons_ne_nil r rs)) := by
              rw [hll, List.getLast?_cons_cons]
              exact List.getLast?_eq_getLast (r :: rs) (List.cons_ne_nil r rs)
            obtain ⟨hll_ro, hnb_ro, hmx_ro⟩ := RemoveOldest_some vlen hg
            have hdl : c.ll.dropLast = e :: (r :: rs).dropLast := by rw [hll]; rfl
            have hfoot1 : (RemoveOldest vlen c).1.nbyte =
                footprint vlen (RemoveOldest vlen c).1.ll := by
              rw [hll_ro, hnb_ro, footprint_dropLast vlen hg]; omega
            have hll1 : (RemoveOldest vlen c).1.ll = e :: (r :: rs).dropLast := by
              rw [hll_ro]; exact hdl
            have hfit1 : (RemoveOldest vlen c).1.maxBytes = 0 ∨
                entryBytes vlen e ≤ (RemoveOldest vlen c).1.maxBytes := by
              rw [hmx_ro]; exact Or.inr hfite
            exact ih (RemoveOldest vlen c).1 e ((r :: rs).dropLast) hll1 hfoot1 hfit1
      · rw [evictLoop_succ, if_neg hcond]
        exact ⟨rest, hll⟩

end lru

namespace lru

variable {V : Type} (vlen : V → Nat)

theorem New_inv (maxBytes : Int) : Inv vlen (New maxBytes : Cache V) := by
  refine ⟨rfl, List.nodup_nil, fun hpos => ?_⟩
  have hpos' : (0 : Int) < maxBytes := hpos
  show (0 : Int) ≤ maxBytes
  omega

/-- A state reached from a counter-correct, key-unique state by the eviction
loop run on its own list length satisfies the full invariant. -/
theorem inv_of_phase1 (c1 : Cache V) (hfoot1 : c1.nbyte = footprint vlen c1.ll)
    (hnod1 : (c1.ll.map Entry.key).Nodup) :
    Inv vlen (evictLoop vlen c1.ll.length c1).1 := by
  have hspec := evictLoop_spec vlen c1.ll.length c1 hfoot1 (le_refl _)
  refine ⟨hspec.2.1, ?_, ?_⟩
  · obtain ⟨t, ht⟩ := hspec.2.2.1
    have hnod2 : (((evictLoop vlen c1.ll.length c1).1.ll ++ t).map Entry.key).Nodup := by
      rw [← ht]; exact hnod1
    rw [List.map_append] at hnod2
    exact List.Nodup.of_append_left hnod2
  · intro hpos
    rw [hspec.1] at hpos ⊢
    exact hspec.2.2.2 hpos

theorem Add_fst_inv {c : Cache V} (key : String) (value : V) (h : Inv vlen c) :
    Inv vlen (Add vlen c key value).1 := by
  cases hf : findEntry c.ll key with
  | some e =>
      simp only [Add, hf]
      apply inv_of_phase1 vlen
        ({ c with
            nbyte := c.nbyte - (vlen e.value : Int) + (vlen value : Int),
            ll := (⟨key, value⟩ : Entry V) :: removeKey c.ll key })
      · show c.nbyte - (vlen e.value : Int) + (vlen value : Int) =
          footprint vlen ((⟨key, value⟩ : Entry V) :: removeKey c.ll key)
        have hek : e.key = key := findEntry_key hf
        have hfp : footprint vlen c.ll =
            footprint vlen (e :: removeKey c.ll key) :=
          (footprint_perm vlen (findEntry_perm hf)).symm
        have hfp1 : footprint vlen (e :: removeKey c.ll key) =
            entryBytes vlen e + footprint vlen (removeKey c.ll key) := rfl
        have hfp2 : footprint vlen ((⟨key, value⟩ : Entry V) :: removeKey c.ll key) =
            entryBytes vlen (⟨key, value⟩ : Entry V) +
              footprint vlen (removeKey c.ll key) := rfl
        have heb : entryBytes vlen e = (key.length : Int) + (vlen e.value : Int) := by
          rw [entryBytes, hek]
        have hebn : entryBytes vlen (⟨key, value⟩ : Entry V) =
            (key.length : Int) + (vlen value : Int) := rfl
        have h1 := h.1
        omega
      · show ((((⟨key, value⟩ : Entry V)) :: removeKey c.ll key).map Entry.key).Nodup
        have hek : e.key = key := findEntry_key hf
        have hperm := (findEntry_perm hf).map Entry.key
        have hnod : ((e :: removeKey c.ll key).map Entry.key).Nodup :=
          hperm.nodup_iff.mpr h.2.1
        have hhead : (e :: removeKey c.ll key).map Entry.key =
            key :: (removeKey c.ll key).map Entry.key := by
          simp [hek]
        have hhead2 : ((⟨key, value⟩ : Entry V) :: removeKey c.ll key).map Entry.key =
            key :: (removeKey c.ll key).map Entry.key := by simp
        rw [hhead2]
        rw [hhead] at hnod
        exact hnod
  | none =>
      simp only [Add, hf]
      apply inv_of_phase1 vlen
        ({ c with
            ll := (⟨key, value⟩ : Entry V) :: c.ll,
            nbyte := c.nbyte + (key.length : Int) + (vlen value : Int) })
      · show c.nbyte + (key.length : Int) + (vlen value : Int) =
          footprint vlen ((⟨key, value⟩ : Entry V) :: c.ll)
        have hfp : footprint vlen ((⟨key, value⟩ : Entry V) :: c.ll) =
            entryBytes vlen (⟨key, value⟩ : Entry V) + footprint vlen c.ll := rfl
        have hebn : entryBytes vlen (⟨key, value⟩ : Entry V) =
            (key.length : Int) + (vlen value : Int) := rfl
        have h1 := h.1
        omega
      · show ((((⟨key, value⟩ : Entry V)) :: c.ll).map Entry.key).Nodup
        have hmem : key ∉ c.ll.map Entry.key := by
          intro hk
          obtain ⟨e, he, hek⟩ := List.mem_map.mp hk
          exact findEntry_none hf e he hek
        simpa using List.Nodup.cons hmem h.2.1

theorem Get_snd_inv {c : Cache V} (key : String) (h : Inv vlen c) :
    Inv vlen (Get c key).2 := by
  cases hf : findEntry c.ll key with
  | none => simp only [Get, hf]; exact h
  | some e =>
      simp only [Get, hf]
      have hperm := findEntry_perm hf
      refine ⟨?_, ?_, ?_⟩
      · show c.nbyte = footprint vlen (e :: removeKey c.ll key)
        rw [footprint_perm vlen hperm]
        exact h.1
      · show ((e :: removeKey c.ll key).map Entry.key).Nodup
        exact ((hperm.map Entry.key).nodup_iff).mpr h.2.1
      · exact h.2.2

theorem RemoveOldest_fst_inv {c : Cache V} (h : Inv vlen c) :
    Inv vlen (RemoveOldest vlen c).1 := by
  cases hg : c.ll.getLast? with
  | none =>
      have heq : (RemoveOldest vlen c).1 = c := by simp [RemoveOldest, hg]
      rw [heq]; exact h
  | some e =>
      obtain ⟨hll, hnb, hmx⟩ := RemoveOldest_some vlen hg
      refine ⟨?_, ?_, ?_⟩
      · rw [hll, hnb, footprint_dropLast vlen hg, h.1]
      · rw [hll]
        have hsub : c.ll.dropLast.Sublist c.ll := by
          conv_rhs => rw [getLast?_decomp hg]
          exact List.sublist_append_left _ _
        exact h.2.1.sublist (hsub.map Entry.key)
      · rw [hmx, hnb]
        intro hpos
        have hnn := entryBytes_nonneg vlen e
        have hb := h.2.2 hpos
        omega

theorem applyOp_inv {c : Cache V} (op : LruOp V) (h : Inv vlen c) :
    Inv vlen (applyOp vlen c op) := by
  cases op with
  | add k v => exact Add_fst_inv vlen k v h
  | get k => exact Get_snd_inv vlen k h
  | removeOldest => exact RemoveOldest_fst_inv vlen h

theorem foldl_inv (ops : List (LruOp V)) :
    ∀ c : Cache V, Inv vlen c → Inv vlen (ops.foldl (applyOp vlen) c) := by
  induction ops with
  | nil => intro c h; exact h
  | cons op rest ih => intro c h; exact ih _ (applyOp_inv vlen op h)

theorem runOps_inv (maxBytes : Int) (ops : List (LruOp V)) :
    Inv vlen (runOps vlen maxBytes ops) :=
  foldl_inv vlen ops _ (New_inv vlen maxBytes)

/-- After `Add key value` on a counter-correct cache, `Get key` hits and
returns the just-added value, provided the entry alone fits the bound. -/
theorem Add_get_hit {c : Cache V} (key : String) (value : V)
    (hfoot : c.nbyte = footprint vlen c.ll)
    (hfit : c.maxBytes = 0 ∨ (key.length : Int) + (vlen value : Int) ≤ c.maxBytes) :
    (Get (Add vlen c key value).1 key).1 = some value := by
  have hfit' : ∀ c1 : Cache V, c1.maxBytes = c.maxBytes →
      c1.maxBytes = 0 ∨ entryBytes vlen (⟨key, value⟩ : Entry V) ≤ c1.maxBytes := by
    intro c1 hmx
    rw [hmx]
    have : entryBytes vlen (⟨key, value⟩ : Entry V) =
        (key.length : Int) + (vlen value : Int) := rfl
    rw [this]
    exact hfit
  have hget : ∀ d : Cache V, ∀ rest2, d.ll = (⟨key, value⟩ : Entry V) :: rest2 →
      (Get d key).1 = some value := by
    intro d rest2 hd
    have : findEntry d.ll key = some (⟨key, value⟩ : Entry V) := by
      rw [hd]; simp [findEntry]
    simp [Get, this]
  cases hf : findEntry c.ll key with
  | some e =>
      simp only [Add, hf]
      have hfoot1 :
          ({ c with
              nbyte := c.nbyte - (vlen e.value : Int) + (vlen value : Int),
              ll := (⟨key, value⟩ : Entry V) :: removeKey c.ll key } : Cache V).nbyte =
            footprint vlen ((⟨key, value⟩ : Entry V) :: removeKey c.ll key) := by
        show c.nbyte - (vlen e.value : Int) + (vlen value : Int) =
          footprint vlen ((⟨key, value⟩ : Entry V) :: removeKey c.ll key)
        have hek : e.key = key := findEntry_key hf
        have hfp : footprint vlen c.ll = footprint vlen (e :: removeKey c.ll key) :=
          (footprint_perm vlen (findEntry_perm hf)).symm
        have hfp1 : footprint vlen (e :: removeKey c.ll key) =
            entryBytes vlen e + footprint vlen (removeKey c.ll key) := rfl
        have hfp2 : footprint vlen ((⟨key, value⟩ : Entry V) :: removeKey c.ll key) =
            entryBytes vlen (⟨key, value⟩ : Entry V) +
              footprint vlen (removeKey c.ll key) := rfl
        have heb : entryBytes vlen e = (key.length : Int) + (vlen e.value : Int) := by
          rw [entryBytes, hek]
        have hebn : entryBytes vlen (⟨key, value⟩ : Entry V) =
            (key.length : Int) + (vlen value : Int) := rfl
        omega
      obtain ⟨rest2, hll2⟩ :=
        evictLoop_keeps_head vlen _ _ (⟨key, value⟩ : Entry V) (removeKey c.ll key)
          rfl hfoot1 (hfit' _ rfl)
      exact hget _ rest2 hll2
  | none =>
      simp only [Add, hf]
      have hfoot1 :
          ({ c with
              ll := (⟨key, value⟩ : Entry V) :: c.ll,
              nbyte := c.nbyte + (key.length : Int) + (vlen value : Int) } : Cache V).nbyte =
            footprint vlen ((⟨key, value⟩ : Entry V) :: c.ll) := by
        show c.nbyte + (key.length : Int) + (vlen value : Int) =
          footprint vlen ((⟨key, value⟩ : Entry V) :: c.ll)
        have hfp : footprint vlen ((⟨key, value⟩ : Entry V) :: c.ll) =
            entryBytes vlen (⟨key, value⟩ : Entry V) + footprint vlen c.ll := rfl
        have hebn : entryBytes vlen (⟨key, value⟩ : Entry V) =
            (key.length : Int) + (vlen value : Int) := rfl
        omega
      obtain ⟨rest2, hll2⟩ :=
        evictLoop_keeps_head vlen _ _ (⟨key, value⟩ : Entry V) c.ll
          rfl hfoot1 (hfit' _ rfl)
      exact hget _ rest2 hll2

end lru

/-- C3: for every sequence of LRU `Add`, `Get` and `RemoveOldest` operations,
at every point the tracked byte counter equals the sum over live entries of
`len(key) + value.Len()`, each present key has exactly one position in the
ordered sequence, and whenever `maxBytes > 0` the counter is at most
`maxBytes` after every mutation (`maxBytes = 0` meaning unlimited); moreover a
single `Add` may evict several entries (here: two) to restore the bound. -/
theorem C3_lru_invariant_all_op_sequences :
    (∀ (maxBytes : Int) (ops : List (lru.LruOp String)),
        lru.Inv String.length (lru.runOps String.length maxBytes ops)) ∧
    (lru.Add String.length
        (lru.Add String.length (lru.Add String.length (lru.New 4) "a" "x").1 "b" "y").1
        "cd" "zw").2 = [("a", "x"), ("b", "y")] :=
  ⟨fun maxBytes ops => lru.runOps_inv String.length maxBytes ops, by decide⟩

/-- Witness for C3 at a concrete operation sequence and bound. -/
theorem C3_witness :
    lru.Inv String.length
      (lru.runOps String.length 10
        [lru.LruOp.add "k1" "v1", lru.LruOp.get "k1", lru.LruOp.removeOldest]) :=
  C3_lru_invariant_all_op_sequences.1 10
    [lru.LruOp.add "k1" "v1", lru.LruOp.get "k1", lru.LruOp.removeOldest]

/-- C7: with `maxBytes = 10`, adding `"k1"→"v1"`, `"k2"→"v2"`, `"k3"→"v3"`
(4 bytes each) evicts exactly `"k1"`, leaves two entries with `"k2"` and
`"k3"` present, and fires the eviction callback exactly once, with arguments
`("k1", "v1")`. -/
theorem C7_lru_eviction_scenario :
    (lru.Add String.length (lru.New 10) "k1" "v1").2 = [] ∧
    (lru.Add String.length (lru.Add String.length (lru.New 10) "k1" "v1").1 "k2" "v2").2 = [] ∧
    (lru.Add String.length
        (lru.Add String.length (lru.Add String.length (lru.New 10) "k1" "v1").1 "k2" "v2").1
        "k3" "v3").2 = [("k1", "v1")] ∧
    lru.Len
      (lru.Add String.length
          (lru.Add String.length (lru.Add String.length (lru.New 10) "k1" "v1").1 "k2" "v2").1
          "k3" "v3").1 = 2 ∧
    (lru.Get
        (lru.Add String.length
            (lru.Add String.length (lru.Add String.length (lru.New 10) "k1" "v1").1 "k2" "v2").1
            "k3" "v3").1 "k1").1 = none ∧
    (lru.Get
        (lru.Add String.length
            (lru.Add String.length (lru.Add String.length (lru.New 10) "k1" "v1").1 "k2" "v2").1
            "k3" "v3").1 "k2").1 = some "v2" ∧
    (lru.Get
        (lru.Add String.length
            (lru.Add String.length (lru.Add String.length (lru.New 10) "k1" "v1").1 "k2" "v2").1
            "k3" "v3").1 "k3").1 = some "v3" := by
  decide

/-- C10: `RemoveOldest` on an LRU cache with no live entries is a total
no-op: it touches neither the entry list nor the byte counter (nor, with the
implicit key map, any mapping), and the eviction callback is not invoked. -/
theorem C10_removeOldest_empty_noop (V : Type) (vlen : V → Nat) (c : lru.Cache V)
    (h : lru.Len c = 0) : lru.RemoveOldest vlen c = (c, []) := by
  have hnil : c.ll = [] := List.eq_nil_of_length_eq_zero h
  have hg : c.ll.getLast? = none := by rw [hnil]; rfl
  simp [lru.RemoveOldest, hg]

/-- Witness for C10 on the fresh empty cache. -/
theorem C10_witness :
    lru.Len (lru.New 10 : lru.Cache String) = 0 ∧
      lru.RemoveOldest String.length (lru.New 10 : lru.Cache String) = (lru.New 10, []) :=
  ⟨rfl, C10_removeOldest_empty_noop String String.length (lru.New 10) rfl⟩

namespace consistenthash

/-- Spec-side target selection (§4.3): the smallest stored hash that is at
least `h`. -/
def minGE (keys : List Int) (h : Int) : Option Int :=
  (keys.filter (fun k => h ≤ k)).min?

/-- Spec-side description of `Get`, written from the spec's words: "If the
ring is empty, return the empty string.  Otherwise compute h = H(key).  Locate
the smallest hash in the sorted sequence that is ≥ h.  If no such entry exists
(h exceeds the last), wrap to the first entry.  Return the peer name mapped
from that hash." — with the first entry of the sorted sequence being its
smallest element. -/
def specGet (m : Map) (key : String) : String :=
  match m.keys.min? with
  | none => ""
  | some least =>
      let h : Int := (m.hash key : Nat)
      match minGE m.keys h with
      | some t => mapLookup m.hashMap t
      | none => mapLookup m.hashMap least

theorem foldl_min_eq {k : Int} : ∀ {rest : List Int}, (∀ x ∈ rest, k ≤ x) →
    rest.foldl min k = k := by
  intro rest
  induction rest with
  | nil => intro _; rfl
  | cons x xs ih =>
      intro hall
      have hkx : min k x = k := min_eq_left (hall x (List.mem_cons_self x xs))
      show (xs.foldl min (min k x)) = k
      rw [hkx]
      exact ih fun y hy => hall y (List.mem_cons_of_mem x hy)

theorem min?_eq_head_of_sorted : ∀ {l : List Int}, List.Sorted (· ≤ ·) l →
    l.min? = l.head? := by
  intro l
  induction l with
  | nil => intro _; rfl
  | cons k rest _ =>
      intro hs
      have hall : ∀ x ∈ rest, k ≤ x := (List.sorted_cons.mp hs).1
      show some (rest.foldl min k) = some k
      rw [foldl_min_eq hall]

theorem findGE_eq_head_filter : ∀ {l : List Int} (h : Int), List.Sorted (· ≤ ·) l →
    findGE l h = (l.filter (fun k => h ≤ k)).head? := by
  intro l
  induction l with
  | nil => intro h _; rfl
  | cons k rest ih =>
      intro h hs
      by_cases hk : h ≤ k
      · have : k ≥ h := hk
        simp [findGE, this, List.filter_cons, decide_eq_true hk]
      · have hnot : ¬ k ≥ h := hk
        simp only [findGE, if_neg hnot, List.filter_cons, decide_eq_false hk,
          Bool.false_eq_true, if_false]
        exact ih h (List.sorted_cons.mp hs).2

theorem sorted_le_last : ∀ {l : List Int}, List.Sorted (· ≤ ·) l →
    ∀ {e : Int}, l.getLast? = some e → ∀ x ∈ l, x ≤ e := by
  intro l
  induction l with
  | nil => intro _ e he; simp at he
  | cons k rest ih =>
      intro hs e he x hx
      cases hrest : rest with
      | nil =>
          subst hrest
          have hek : e = k := by
            rw [List.getLast?_eq_getLast _ (List.cons_ne_nil k [])] at he
            simpa using he.symm
          have hxk : x = k := by simpa using hx
          rw [hek, hxk]
      | cons r rs =>
          subst hrest
          have he2 : (r :: rs).getLast? = some e := by
            rw [← he]
            exact (List.getLast?_cons_cons).symm
          have hsorted2 := (List.sorted_cons.mp hs).2
          rcases List.mem_cons.mp hx with rfl | hmem
          · have hxr : x ≤ r := (List.sorted_cons.mp hs).1 r (List.mem_cons_self r rs)
            have hre : r ≤ e := ih hsorted2 he2 r (List.mem_cons_self r rs)
            omega
          · exact ih hsorted2 he2 x hmem

end consistenthash

/-- C5: for a ring built with `replicas = 3` and the test's `Atoi`-based hash,
after `Add("2","4","6")`: `Get("2") = "2"`, `Get("11") = "2"`,
`Get("23") = "4"`, `Get("27") = "2"`; and after a further `Add("8")`:
`Get("27") = "8"` while the earlier three answers are unchanged. -/
theorem C5_ring_closed_form :
    ((consistenthash.New 3 consistenthash.testHash).Add ["2", "4", "6"]).Get "2" = "2" ∧
    ((consistenthash.New 3 consistenthash.testHash).Add ["2", "4", "6"]).Get "11" = "2" ∧
    ((consistenthash.New 3 consistenthash.testHash).Add ["2", "4", "6"]).Get "23" = "4" ∧
    ((consistenthash.New 3 consistenthash.testHash).Add ["2", "4", "6"]).Get "27" = "2" ∧
    ((((consistenthash.New 3 consistenthash.testHash).Add ["2", "4", "6"]).Add ["8"]).Get "27" = "8") ∧
    ((((consistenthash.New 3 consistenthash.testHash).Add ["2", "4", "6"]).Add ["8"]).Get "2" = "2") ∧
    ((((consistenthash.New 3 consistenthash.testHash).Add ["2", "4", "6"]).Add ["8"]).Get "11" = "2") ∧
    ((((consistenthash.New 3 consistenthash.testHash).Add ["2", "4", "6"]).Add ["8"]).Get "23" = "4") := by
  decide

namespace consistenthash

/-- On a ring with sorted keys (any ring `Add` builds), the linear-scan `Get`
computes exactly the spec's selection. -/
theorem Get_eq_specGet (m : Map) (key : String)
    (hsorted : List.Sorted (· ≤ ·) m.keys) :
    m.Get key = specGet m key := by
  cases hk : m.keys with
  | nil => simp [Map.Get, specGet, hk]
  | cons k0 rest =>
      have hsorted' : List.Sorted (· ≤ ·) (k0 :: rest) := hk ▸ hsorted
      have hmin : (k0 :: rest).min? = some k0 := by
        rw [min?_eq_head_of_sorted hsorted']; rfl
      have hlast := List.getLast?_eq_getLast (k0 :: rest) (List.cons_ne_nil k0 rest)
      simp only [Map.Get, specGet, hk, hmin]
      by_cases hgt : ((m.hash key : Nat) : Int) > (k0 :: rest).getLast (List.cons_ne_nil k0 rest)
      · rw [if_pos hgt]
        have hfil : (k0 :: rest).filter (fun k => ((m.hash key : Nat) : Int) ≤ k) = [] := by
          apply List.filter_eq_nil_iff.mpr
          intro a ha
          have hle := sorted_le_last hsorted' hlast a ha
          simp only [decide_eq_true_eq]
          omega
        simp only [minGE, hfil]
        rfl
      · rw [if_neg hgt]
        have hle : ((m.hash key : Nat) : Int) ≤ (k0 :: rest).getLast (List.cons_ne_nil k0 rest) := by
          omega
        have hmem : (k0 :: rest).getLast (List.cons_ne_nil k0 rest) ∈
            (k0 :: rest).filter (fun k => ((m.hash key : Nat) : Int) ≤ k) := by
          apply List.mem_filter.mpr
          exact ⟨List.getLast_mem _, by simpa using hle⟩
        have hfa := findGE_eq_head_filter ((m.hash key : Nat) : Int) hsorted'
        have hfsorted : List.Sorted (· ≤ ·)
            ((k0 :: rest).filter (fun k => ((m.hash key : Nat) : Int) ≤ k)) :=
          hsorted'.filter _
        cases hfil : (k0 :: rest).filter (fun k => ((m.hash key : Nat) : Int) ≤ k) with
        | nil => rw [hfil] at hmem; simp at hmem
        | cons t ts =>
            have hge : findGE (k0 :: rest) ((m.hash key : Nat) : Int) = some t := by
              rw [hfa, hfil]; rfl
            have hmge : minGE (k0 :: rest) ((m.hash key : Nat) : Int) = some t := by
              rw [hfil] at hfsorted
              unfold minGE
              rw [hfil, min?_eq_head_of_sorted hfsorted]
              rfl
            rw [hge, hmge]

end consistenthash

/-- C4: on every consistent-hash ring (whose stored hash sequence is sorted,
as `Add` guarantees), `Get(key)` returns the empty string when the ring holds
no hashes; otherwise it returns the peer mapped from the smallest stored hash
`≥ H(key)`, wrapping to the peer of the first (smallest) stored hash when
`H(key)` exceeds the largest stored hash — i.e. `Get` agrees with the
spec-side `specGet`. -/
theorem C4_get_owner_selection (m : consistenthash.Map) (key : String)
    (hsorted : List.Sorted (· ≤ ·) m.keys) :
    m.Get key = consistenthash.specGet m key :=
  consistenthash.Get_eq_specGet m key hsorted

/-- A small concrete sorted ring used to witness C4. -/
def ringC4 : consistenthash.Map :=
  { replicas := 1, keys := [2, 14, 26], hash := consistenthash.testHash,
    hashMap := [(2, "a"), (14, "b"), (26, "c")] }

/-- Witness for C4 on a concrete sorted ring. -/
theorem C4_witness :
    List.Sorted (· ≤ ·) ringC4.keys ∧
      ringC4.Get "7" = consistenthash.specGet ringC4 "7" :=
  ⟨by decide, C4_get_owner_selection ringC4 "7" (by decide)⟩

namespace consistenthash

/-- The virtual-node hashes `Add` computes for one real node. -/
def virtualHashes (hash : String → Nat) (replicas : Nat) (p : String) : List Int :=
  (List.range replicas).map (fun i => ((hash (toString i ++ p) : Nat) : Int))

/-- All (hash, peer) pairs `Add` records for a list of real nodes, in
insertion order. -/
def allInserts (hash : String → Nat) (replicas : Nat) (peers : List String) :
    List (Int × String) :=
  (peers.map (fun p => (virtualHashes hash replicas p).map (fun h => (h, p)))).flatten

theorem insertSorted_perm (x : Int) : ∀ l : List Int, (insertSorted x l).Perm (x :: l) := by
  intro l
  induction l with
  | nil => exact List.Perm.refl _
  | cons y ys ih =>
      by_cases h : x ≤ y
      · simp [insertSorted, h]
      · simp only [insertSorted, if_neg h]
        exact (ih.cons y).trans (List.Perm.swap x y ys)

theorem insertSorted_sorted (x : Int) : ∀ {l : List Int}, List.Sorted (· ≤ ·) l →
    List.Sorted (· ≤ ·) (insertSorted x l) := by
  intro l
  induction l with
  | nil => intro _; simp [insertSorted]
  | cons y ys ih =>
      intro h
      rcases List.sorted_cons.mp h with ⟨hy, hys⟩
      by_cases hxy : x ≤ y
      · simp only [insertSorted, if_pos hxy]
        apply List.sorted_cons.mpr
        refine ⟨?_, h⟩
        intro b hb
        rcases List.mem_cons.mp hb with rfl | hmem
        · exact hxy
        · exact le_trans hxy (hy b hmem)
      · simp only [insertSorted, if_neg hxy]
        apply List.sorted_cons.mpr
        refine ⟨?_, ih hys⟩
        intro b hb
        have hb2 : b ∈ x :: ys := (insertSorted_perm x ys).subset hb
        rcases List.mem_cons.mp hb2 with rfl | hmem
        · omega
        · exact hy b hmem

theorem sortInts_sorted : ∀ l : List Int, List.Sorted (· ≤ ·) (sortInts l) := by
  intro l
  induction l with
  | nil => simp [sortInts]
  | cons x xs ih => exact insertSorted_sorted x ih

theorem sortInts_perm : ∀ l : List Int, (sortInts l).Perm l := by
  intro l
  induction l with
  | nil => exact List.Perm.refl _
  | cons x xs ih => exact (insertSorted_perm x (sortInts xs)).trans (ih.cons x)

theorem foldl_addVirtual (p : String) : ∀ (is : List Nat) (a : Map),
    (is.foldl (addVirtual p) a).replicas = a.replicas ∧
    (is.foldl (addVirtual p) a).hash = a.hash ∧
    (is.foldl (addVirtual p) a).keys =
      a.keys ++ is.map (fun i => ((a.hash (toString i ++ p) : Nat) : Int)) ∧
    (is.foldl (addVirtual p) a).hashMap =
      (is.map (fun i => (((a.hash (toString i ++ p) : Nat) : Int), p))).reverse ++
        a.hashMap := by
  intro is
  induction is with
  | nil => intro a; exact ⟨rfl, rfl, by simp, by simp⟩
  | cons i is' ih =>
      intro a
      have h1 := ih (addVirtual p a i)
      refine ⟨?_, ?_, ?_, ?_⟩
      · rw [List.foldl_cons, h1.1]; rfl
      · rw [List.foldl_cons, h1.2.1]; rfl
      · rw [List.foldl_cons, h1.2.2.1]
        show (a.keys ++ [((a.hash (toString i ++ p) : Nat) : Int)]) ++
            is'.map (fun j => ((a.hash (toString j ++ p) : Nat) : Int)) =
          a.keys ++ (i :: is').map (fun j => ((a.hash (toString j ++ p) : Nat) : Int))
        simp
      · rw [List.foldl_cons, h1.2.2.2]
        show (is'.map (fun j => (((a.hash (toString j ++ p) : Nat) : Int), p))).reverse ++
            ((((a.hash (toString i ++ p) : Nat) : Int), p) :: a.hashMap) =
          ((i :: is').map (fun j => (((a.hash (toString j ++ p) : Nat) : Int), p))).reverse ++
            a.hashMap
        simp

theorem addPeer_components (a : Map) (p : String) :
    (addPeer a p).replicas = a.replicas ∧
    (addPeer a p).hash = a.hash ∧
    (addPeer a p).keys = a.keys ++ virtualHashes a.hash a.replicas p ∧
    (addPeer a p).hashMap =
      ((virtualHashes a.hash a.replicas p).map (fun h => (h, p))).reverse ++ a.hashMap := by
  have h := foldl_addVirtual p (List.range a.replicas) a
  refine ⟨h.1, h.2.1, h.2.2.1, ?_⟩
  show (List.foldl (addVirtual p) a (List.range a.replicas)).hashMap =
    ((virtualHashes a.hash a.replicas p).map (fun h => (h, p))).reverse ++ a.hashMap
  rw [h.2.2.2, virtualHashes, List.map_map]
  rfl

end consistenthash

namespace consistenthash

theorem allInserts_nil (hash : String → Nat) (replicas : Nat) :
    allInserts hash replicas [] = [] := rfl

theorem allInserts_cons (hash : String → Nat) (replicas : Nat) (p : String)
    (ps : List String) :
    allInserts hash replicas (p :: ps) =
      (virtualHashes hash replicas p).map (fun h => (h, p)) ++ allInserts hash replicas ps := by
  simp [allInserts]

theorem allInserts_append (hash : String → Nat) (replicas : Nat)
    (ps qs : List String) :
    allInserts hash replicas (ps ++ qs) =
      allInserts hash replicas ps ++ allInserts hash replicas qs := by
  induction ps with
  | nil => simp [allInserts_nil, allInserts]
  | cons p ps' ih => rw [List.cons_append, allInserts_cons, allInserts_cons, ih,
      List.append_assoc]

theorem map_fst_pairs (p : String) : ∀ l : List Int,
    (l.map (fun h => (h, p))).map Prod.fst = l := by
  intro l
  induction l with
  | nil => rfl
  | cons x xs ih => simp only [List.map_cons, ih]

theorem allInserts_map_fst (hash : String → Nat) (replicas : Nat) :
    ∀ peers : List String,
      (allInserts hash replicas peers).map Prod.fst =
        (peers.map (virtualHashes hash replicas)).flatten := by
  intro peers
  induction peers with
  | nil => rfl
  | cons p ps ih =>
      rw [allInserts_cons, List.map_append, ih, List.map_cons, List.flatten_cons]
      congr 1
      exact map_fst_pairs p _

/-- Every recorded pair is a virtual hash of its peer. -/
theorem allInserts_mem_inv (hash : String → Nat) (replicas : Nat)
    {peers : List String} {pr : Int × String} (h : pr ∈ allInserts hash replicas peers) :
    pr.2 ∈ peers ∧ ∃ i < replicas, pr.1 = ((hash (toString i ++ pr.2) : Nat) : Int) := by
  induction peers with
  | nil => simp [allInserts_nil] at h
  | cons p ps ih =>
      rw [allInserts_cons] at h
      rcases List.mem_append.mp h with hin | hin
      · obtain ⟨x, hx, hpr⟩ := List.mem_map.mp hin
        obtain ⟨i, hi, hxi⟩ := List.mem_map.mp hx
        have hir : i < replicas := List.mem_range.mp hi
        subst hpr
        exact ⟨List.mem_cons_self p ps, ⟨i, hir, hxi.symm⟩⟩
      · obtain ⟨hmem, hrest⟩ := ih hin
        exact ⟨List.mem_cons_of_mem p hmem, hrest⟩

/-- Conversely, each virtual hash of each peer is recorded. -/
theorem allInserts_mem (hash : String → Nat) (replicas : Nat)
    {peers : List String} {p : String} (hp : p ∈ peers) {i : Nat} (hi : i < replicas) :
    (((hash (toString i ++ p) : Nat) : Int), p) ∈ allInserts hash replicas peers := by
  induction peers with
  | nil => simp at hp
  | cons q qs ih =>
      rw [allInserts_cons]
      rcases List.mem_cons.mp hp with rfl | hmem
      · apply List.mem_append_left
        apply List.mem_map.mpr
        refine ⟨((hash (toString i ++ p) : Nat) : Int), ?_, rfl⟩
        apply List.mem_map.mpr
        exact ⟨i, List.mem_range.mpr hi, rfl⟩
      · exact List.mem_append_right _ (ih hmem)

theorem mapLookup_of_unique : ∀ {l : List (Int × String)} {h : Int} {p : String},
    (∀ pr ∈ l, pr.1 = h → pr.2 = p) → (h, p) ∈ l → mapLookup l h = p := by
  intro l
  induction l with
  | nil => intro h p _ hmem; simp at hmem
  | cons pr rest ih =>
      intro h p hall hmem
      obtain ⟨h', q⟩ := pr
      by_cases heq : h' = h
      · simp only [mapLookup, if_pos heq]
        exact hall (h', q) (List.mem_cons_self _ _) heq
      · simp only [mapLookup, if_neg heq]
        apply ih
        · intro x hx hx1
          exact hall x (List.mem_cons_of_mem _ hx) hx1
        · rcases List.mem_cons.mp hmem with hpq | hmem2
          · exact absurd (congrArg Prod.fst hpq).symm heq
          · exact hmem2

/-- Fold a whole sequence of `Add` calls. -/
def addAll (m : Map) (adds : List (List String)) : Map :=
  adds.foldl Map.Add m

theorem Add_components (m : Map) (ks : List String) :
    (m.Add ks).replicas = m.replicas ∧
    (m.Add ks).hash = m.hash ∧
    (m.Add ks).keys =
      sortInts (m.keys ++ (allInserts m.hash m.replicas ks).map Prod.fst) ∧
    (m.Add ks).hashMap = (allInserts m.hash m.replicas ks).reverse ++ m.hashMap := by
  have hfold : ∀ (ks' : List String) (a : Map),
      (ks'.foldl addPeer a).replicas = a.replicas ∧
      (ks'.foldl addPeer a).hash = a.hash ∧
      (ks'.foldl addPeer a).keys =
        a.keys ++ (allInserts a.hash a.replicas ks').map Prod.fst ∧
      (ks'.foldl addPeer a).hashMap =
        (allInserts a.hash a.replicas ks').reverse ++ a.hashMap := by
    intro ks'
    induction ks' with
    | nil => intro a; exact ⟨rfl, rfl, by simp [allInserts_nil], by simp [allInserts_nil]⟩
    | cons p ps ih =>
        intro a
        have hone := addPeer_components a p
        have hrec := ih (addPeer a p)
        rw [hone.1, hone.2.1] at hrec
        refine ⟨?_, ?_, ?_, ?_⟩
        · rw [List.foldl_cons, hrec.1]
        · rw [List.foldl_cons, hrec.2.1]
        · rw [List.foldl_cons, hrec.2.2.1, hone.2.2.1, allInserts_cons,
            List.map_append, List.append_assoc, map_fst_pairs p]
        · rw [List.foldl_cons, hrec.2.2.2, hone.2.2.2, allInserts_cons,
            List.reverse_append, List.append_assoc]
  have h := hfold ks m
  refine ⟨h.1, h.2.1, ?_, h.2.2.2⟩
  show sortInts (ks.foldl addPeer m).keys =
    sortInts (m.keys ++ (allInserts m.hash m.replicas ks).map Prod.fst)
  rw [h.2.2.1]

theorem addAll_components : ∀ (adds : List (List String)) (m : Map),
    (addAll m adds).replicas = m.replicas ∧
    (addAll m adds).hash = m.hash ∧
    (addAll m adds).keys.Perm
      (m.keys ++ (allInserts m.hash m.replicas adds.flatten).map Prod.fst) ∧
    (addAll m adds).hashMap =
      (allInserts m.hash m.replicas adds.flatten).reverse ++ m.hashMap := by
  intro adds
  induction adds with
  | nil =>
      intro m
      refine ⟨rfl, rfl, ?_, by simp [addAll, allInserts_nil]⟩
      simp [addAll, allInserts_nil]
  | cons ks rest ih =>
      intro m
      have hadd := Add_components m ks
      have hrec := ih (m.Add ks)
      rw [hadd.1, hadd.2.1] at hrec
      have h1 : addAll m (ks :: rest) = addAll (m.Add ks) rest := rfl
      refine ⟨?_, ?_, ?_, ?_⟩
      · rw [h1, hrec.1]
      · rw [h1, hrec.2.1]
      · rw [h1, List.flatten_cons, allInserts_append, List.map_append]
        refine hrec.2.2.1.trans ?_
        rw [hadd.2.2.1]
        have hperm := sortInts_perm (m.keys ++ (allInserts m.hash m.replicas ks).map Prod.fst)
        refine (hperm.append_right _).trans ?_
        rw [List.append_assoc]
      · rw [h1, hrec.2.2.2, hadd.2.2.2, List.flatten_cons, allInserts_append,
          List.reverse_append, List.append_assoc]

theorem addAll_keys_sorted : ∀ (adds : List (List String)) (m : Map),
    List.Sorted (· ≤ ·) m.keys → List.Sorted (· ≤ ·) (addAll m adds).keys := by
  intro adds
  induction adds with
  | nil => intro m h; exact h
  | cons ks rest ih =>
      intro m _
      have h1 : addAll m (ks :: rest) = addAll (m.Add ks) rest := rfl
      rw [h1]
      apply ih
      rw [(Add_components m ks).2.2.1]
      exact sortInts_sorted _

end consistenthash

/-- C6 counterexample: with `replicas = 1` and a constant hash function, the
distinct peers "a" and "b" (each added once) collide on the single ring
position `H(concat(ascii(0), p)) = 0`; the second `Add` overwrites the
mapping, so peer "a"'s virtual hash is mapped to "b", not to "a" as the
claim requires. -/
theorem C6_counterexample :
    consistenthash.mapLookup
        (consistenthash.addAll (consistenthash.New 1 (fun _ => 0)) [["a"], ["b"]]).hashMap
        (((fun (_ : String) => (0 : Nat)) (toString (0 : Nat) ++ "a") : Nat) : Int) = "b" ∧
    ¬ consistenthash.mapLookup
        (consistenthash.addAll (consistenthash.New 1 (fun _ => 0)) [["a"], ["b"]]).hashMap
        (((fun (_ : String) => (0 : Nat)) (toString (0 : Nat) ++ "a") : Nat) : Int) = "a" := by
  decide

/-- C6 (amended): after any sequence of `Add` calls on a fresh ring in which
each distinct peer name is added once, and provided additionally that no two
distinct peers share a virtual-node hash (without this the last `Add` wins on
a collision, as the counterexample shows): the ring's hash sequence is sorted
non-decreasing; as a multiset it consists exactly of the hashes
`H(concat(ascii(i), p))` for each added peer `p` and each `i ∈ [0, replicas)`;
and the hash-to-peer mapping sends each such hash to its peer `p`. -/
theorem C6_ring_invariant_amended (replicas : Nat) (hash : String → Nat)
    (adds : List (List String))
    (hnodup : adds.flatten.Nodup)
    (hdist : ∀ p ∈ adds.flatten, ∀ q ∈ adds.flatten, p ≠ q →
      ∀ i < replicas, ∀ j < replicas,
        hash (toString i ++ p) ≠ hash (toString j ++ q)) :
    List.Sorted (· ≤ ·) (consistenthash.addAll (consistenthash.New replicas hash) adds).keys ∧
    (consistenthash.addAll (consistenthash.New replicas hash) adds).keys.Perm
      ((adds.flatten.map (consistenthash.virtualHashes hash replicas)).flatten) ∧
    (∀ p ∈ adds.flatten, ∀ i < replicas,
      consistenthash.mapLookup
        (consistenthash.addAll (consistenthash.New replicas hash) adds).hashMap
        ((hash (toString i ++ p) : Nat) : Int) = p) := by
  have hcomp := consistenthash.addAll_components adds (consistenthash.New replicas hash)
  refine ⟨?_, ?_, ?_⟩
  · apply consistenthash.addAll_keys_sorted
    show List.Sorted (· ≤ ·) ([] : List Int)
    simp
  · have hk := hcomp.2.2.1
    have heq :
        ((consistenthash.New replicas hash).keys ++
          (consistenthash.allInserts (consistenthash.New replicas hash).hash
            (consistenthash.New replicas hash).replicas adds.flatten).map Prod.fst) =
        (adds.flatten.map (consistenthash.virtualHashes hash replicas)).flatten := by
      show ([] ++
        (consistenthash.allInserts hash replicas adds.flatten).map Prod.fst) = _
      rw [List.nil_append, consistenthash.allInserts_map_fst]
    rw [heq] at hk
    exact hk
  · intro p hp i hi
    rw [hcomp.2.2.2]
    have hmap :
        (consistenthash.allInserts (consistenthash.New replicas hash).hash
            (consistenthash.New replicas hash).replicas adds.flatten).reverse ++
          (consistenthash.New replicas hash).hashMap =
        (consistenthash.allInserts hash replicas adds.flatten).reverse := by
      show (consistenthash.allInserts hash replicas adds.flatten).reverse ++ [] = _
      rw [List.append_nil]
    rw [hmap]
    apply consistenthash.mapLookup_of_unique
    · intro pr hpr hpr1
      have hpr' : pr ∈ consistenthash.allInserts hash replicas adds.flatten :=
        List.mem_reverse.mp hpr
      obtain ⟨hq, j, hj, hprh⟩ :=
        consistenthash.allInserts_mem_inv hash replicas hpr'
      by_cases hpq : pr.2 = p
      · exact hpq
      · exfalso
        have hcast : ((hash (toString j ++ pr.2) : Nat) : Int) =
            ((hash (toString i ++ p) : Nat) : Int) := by rw [← hprh, hpr1]
        have hnat : hash (toString j ++ pr.2) = hash (toString i ++ p) := by
          exact_mod_cast hcast
        exact hdist pr.2 hq p hp hpq j hj i hi hnat
    · exact List.mem_reverse.mpr (consistenthash.allInserts_mem hash replicas hp hi)

/-- Witness for the amended C6 on a concrete two-peer, collision-free ring. -/
theorem C6_witness :
    consistenthash.mapLookup
        (consistenthash.addAll (consistenthash.New 1 consistenthash.testHash)
          [["2"], ["4"]]).hashMap
        ((consistenthash.testHash (toString (0 : Nat) ++ "2") : Nat) : Int) = "2" :=
  (C6_ring_invariant_amended 1 consistenthash.testHash [["2"], ["4"]]
      (by decide) (by decide)).2.2 "2" (by decide) 0 (by decide)

namespace dcache

/-- The spec's invariant for the cache shell's underlying LRU: counter
correct and byte bound as configured.  Holds for every reachable shell. -/
def ShellInv (c : cache) : Prop :=
  match c.lru with
  | none => True
  | some l => l.nbyte = lru.footprint ByteView.Len l.ll ∧ l.maxBytes = c.cacheBytes

/-- A shell miss leaves the shell unchanged. -/
theorem cacheGet_miss_eq {c : cache} {key : String}
    (h : (c.get key).1 = none) : (c.get key).2 = c := by
  obtain ⟨cb, lr⟩ := c
  cases lr with
  | none => rfl
  | some l =>
      have h' : (lru.Get l key).1 = none := h
      cases hf : lru.findEntry l.ll key with
      | some e =>
          have : (lru.Get l key).1 = some e.value := by simp [lru.Get, hf]
          rw [this] at h'
          exact absurd h' (by simp)
      | none =>
          have h2 : (lru.Get l key).2 = l := by simp [lru.Get, hf]
          show ({ cacheBytes := cb, lru := some (lru.Get l key).2 } : cache) =
            { cacheBytes := cb, lru := some l }
          rw [h2]

/-- On a non-empty key missing from the cache, `Get` is the load flow. -/
theorem Get_miss_eq_load {g : Group} {key : String} (hkey : key ≠ "")
    (hmiss : (g.mainCache.get key).1 = none) :
    g.Get key = g.load key := by
  unfold Group.Get
  rw [if_neg hkey]
  have h2 := cacheGet_miss_eq hmiss
  have hpair : g.mainCache.get key = (none, g.mainCache) := by
    have hsplit : g.mainCache.get key =
        ((g.mainCache.get key).1, (g.mainCache.get key).2) := rfl
    rw [hsplit, hmiss, h2]
  rw [hpair]

/-- The remote branch of `load`, fetch failing: zero view, nil error, no
loader call. -/
theorem load_remote_error {g : Group} {key : String} {picker : PeerPicker}
    {peer : PeerGetter} {e : String}
    (hpicker : g.peers = some picker) (hpick : picker key = some peer)
    (hfail : peer g.name key = Except.error e) :
    g.load key =
      { value := { b := [] }, err := none, g := g, events := [.peerCall key false] } := by
  unfold Group.load
  rw [hpicker]
  simp only [hpick]
  unfold Group.GetFromPeer
  rw [hfail]

/-- The remote branch of `load`, fetch succeeding: the peer's bytes, nil
error, and no cache population (the group state is returned unchanged). -/
theorem load_remote_ok {g : Group} {key : String} {picker : PeerPicker}
    {peer : PeerGetter} {bs : List Nat}
    (hpicker : g.peers = some picker) (hpick : picker key = some peer)
    (hok : peer g.name key = Except.ok bs) :
    g.load key =
      { value := { b := bs }, err := none, g := g, events := [.peerCall key true] } := by
  unfold Group.load
  rw [hpicker]
  simp only [hpick]
  unfold Group.GetFromPeer
  rw [hok]

/-- Without a picker, or when the picker declines (no peer / self), `load`
is `getLocally`. -/
theorem load_local {g : Group} {key : String}
    (hlocal : g.peers = none ∨ ∃ picker, g.peers = some picker ∧ picker key = none) :
    g.load key = g.getLocally key := by
  unfold Group.load
  rcases hlocal with hnone | ⟨picker, hpicker, hpick⟩
  · rw [hnone]
  · rw [hpicker]
    simp only [hpick]

/-- `getLocally` on a loader error: zero view, the loader's exact error, and
no cache mutation. -/
theorem getLocally_error {g : Group} {key : String} {e : String}
    (herr : g.getter key = Except.error e) :
    g.getLocally key =
      { value := { b := [] }, err := some e, g := g, events := [.loaderCall key] } := by
  unfold Group.getLocally
  rw [herr]

/-- `getLocally` on success: the loader's bytes and the populated cache. -/
theorem getLocally_ok {g : Group} {key : String} {bs : List Nat}
    (hok : g.getter key = Except.ok bs) :
    g.getLocally key =
      { value := { b := bs }, err := none,
        g := { g with mainCache := g.mainCache.add key { b := bs } },
        events := [.loaderCall key] } := by
  unfold Group.getLocally
  rw [hok]

/-- After `cache.add` of an entry that fits the configured bound, a shell
`get` of the same key hits and returns it (shell invariant assumed). -/
theorem cache_add_get_hit {c : cache} {key : String} {v : ByteView}
    (hinv : ShellInv c)
    (hfit : c.cacheBytes = 0 ∨ (key.length : Int) + (v.Len : Int) ≤ c.cacheBytes) :
    ((c.add key v).get key).1 = some v := by
  obtain ⟨cb, lr⟩ := c
  cases lr with
  | none =>
      show (lru.Get (lru.Add ByteView.Len (lru.New cb) key v).1 key).1 = some v
      apply lru.Add_get_hit
      · rfl
      · exact hfit
  | some l =>
      obtain ⟨hfoot, hmax⟩ := hinv
      show (lru.Get (lru.Add ByteView.Len l key v).1 key).1 = some v
      apply lru.Add_get_hit
      · exact hfoot
      · rw [hmax]; exact hfit

end dcache

/-- C1: when the Group has a picker that selects a remote peer for the key
(so the key is non-empty and misses the local cache) and the transport fetch
from that peer fails, `Group.Get` returns a zero `ByteView` together with a
nil error, and the local loader is never invoked — there is no fallback to
local load. -/
theorem C1_peer_failure_zero_view_nil_error (g : dcache.Group) (key : String)
    (picker : dcache.PeerPicker) (peer : dcache.PeerGetter) (e : String)
    (hkey : key ≠ "")
    (hmiss : (g.mainCache.get key).1 = none)
    (hpicker : g.peers = some picker)
    (hpick : picker key = some peer)
    (hfail : peer g.name key = Except.error e) :
    (g.Get key).value = { b := [] } ∧ (g.Get key).err = none ∧
      ∀ k, dcache.Event.loaderCall k ∉ (g.Get key).events := by
  rw [dcache.Get_miss_eq_load hkey hmiss, dcache.load_remote_error hpicker hpick hfail]
  refine ⟨rfl, rfl, ?_⟩
  intro k hk
  simp at hk

/-- A concrete group whose picker always selects a peer whose transport
always fails; its loader records nothing but would return the key bytes. -/
def gPeerFail : dcache.Group :=
  { name := "scores"
    getter := fun _ => Except.ok [1, 2, 3]
    mainCache := { cacheBytes := 1000, lru := none }
    peers := some (fun _ => some (fun _ _ => Except.error "connection refused")) }

/-- Witness for C1 on the concrete failing-peer group. -/
theorem C1_witness :
    (gPeerFail.Get "Tom").value = { b := [] } ∧ (gPeerFail.Get "Tom").err = none ∧
      ∀ k, dcache.Event.loaderCall k ∉ (gPeerFail.Get "Tom").events :=
  C1_peer_failure_zero_view_nil_error gPeerFail "Tom"
    (fun _ => some (fun _ _ => Except.error "connection refused"))
    (fun _ _ => Except.error "connection refused") "connection refused"
    (by decide) rfl rfl rfl rfl

/-- C8: on the local load path (no picker, or the picker declines the key),
a loader error is propagated verbatim: `Get` returns a zero `ByteView`
together with that exact error, and the local cache is unchanged (no entry is
created for the key). -/
theorem C8_loader_error_propagated (g : dcache.Group) (key : String) (e : String)
    (hkey : key ≠ "")
    (hmiss : (g.mainCache.get key).1 = none)
    (hlocal : g.peers = none ∨ ∃ picker, g.peers = some picker ∧ picker key = none)
    (herr : g.getter key = Except.error e) :
    (g.Get key).value = { b := [] } ∧ (g.Get key).err = some e ∧
      (g.Get key).g.mainCache = g.mainCache := by
  rw [dcache.Get_miss_eq_load hkey hmiss, dcache.load_local hlocal,
    dcache.getLocally_error herr]
  exact ⟨rfl, rfl, rfl⟩

/-- A concrete pickerless group whose loader fails on unknown keys. -/
def gLocalFail : dcache.Group :=
  { name := "scores"
    getter := fun k => Except.error (k ++ " not exist")
    mainCache := { cacheBytes := 1000, lru := none }
    peers := none }

/-- Witness for C8 on the concrete failing-loader group. -/
theorem C8_witness :
    (gLocalFail.Get "unknown").value = { b := [] } ∧
      (gLocalFail.Get "unknown").err = some "unknown not exist" ∧
      (gLocalFail.Get "unknown").g.mainCache = gLocalFail.mainCache :=
  C8_loader_error_propagated gLocalFail "unknown" "unknown not exist"
    (by decide) rfl (Or.inl rfl) rfl

/-- A concrete group whose picker always selects a remote peer that serves
"630" (bytes 54,51,48) for every key; the loader would fail. -/
def gRemoteOk : dcache.Group :=
  { name := "scores"
    getter := fun k => Except.error (k ++ " not exist")
    mainCache := { cacheBytes := 1000, lru := none }
    peers := some (fun _ => some (fun _ _ => Except.ok [54, 51, 48])) }

/-- C2 counterexample: a load that completes successfully served by a remote
peer does NOT populate the local cache — after `Get "Tom"` returns the peer's
bytes with nil error, a lookup of "Tom" in the resulting group's cache still
misses, so the immediately subsequent `Get` is not a local cache hit. -/
theorem C2_counterexample :
    (gRemoteOk.Get "Tom").err = none ∧
    (gRemoteOk.Get "Tom").value = { b := [54, 51, 48] } ∧
    (((gRemoteOk.Get "Tom").g.mainCache.get "Tom").1 = none) := by
  decide

/-- C2 (amended): for a key that misses the local cache, a successful load
is populated into the Group's LRU only on the local-loader path: (a) a load
served by a remote peer returns the peer's bytes with nil error and leaves
the local cache unchanged — nothing is populated; (b) a load served by the
application loader returns its bytes, populates the local cache with exactly
that value, and — whenever the shell satisfies its invariant and the entry
fits the configured bound — an immediately subsequent `Get` for the same key
is a local cache hit returning the fetched value. -/
theorem C2_populate_only_local :
    (∀ (g : dcache.Group) (key : String) (picker : dcache.PeerPicker)
        (peer : dcache.PeerGetter) (bs : List Nat),
      key ≠ "" → (g.mainCache.get key).1 = none →
      g.peers = some picker → picker key = some peer →
      peer g.name key = Except.ok bs →
      (g.Get key).value = { b := bs } ∧ (g.Get key).err = none ∧
        (g.Get key).g.mainCache = g.mainCache) ∧
    (∀ (g : dcache.Group) (key : String) (bs : List Nat),
      key ≠ "" → (g.mainCache.get key).1 = none →
      (g.peers = none ∨ ∃ picker, g.peers = some picker ∧ picker key = none) →
      g.getter key = Except.ok bs →
      (g.Get key).value = { b := bs } ∧ (g.Get key).err = none ∧
        (g.Get key).g.mainCache = g.mainCache.add key { b := bs } ∧
        (dcache.ShellInv g.mainCache →
          (g.mainCache.cacheBytes = 0 ∨
            (key.length : Int) + (bs.length : Int) ≤ g.mainCache.cacheBytes) →
          (((g.Get key).g.mainCache.get key).1 = some { b := bs } ∧
            ((g.Get key).g.Get key).value = { b := bs } ∧
            ((g.Get key).g.Get key).err = none))) := by
  constructor
  · intro g key picker peer bs hkey hmiss hpicker hpick hok
    rw [dcache.Get_miss_eq_load hkey hmiss, dcache.load_remote_ok hpicker hpick hok]
    exact ⟨rfl, rfl, rfl⟩
  · intro g key bs hkey hmiss hlocal hok
    rw [dcache.Get_miss_eq_load hkey hmiss, dcache.load_local hlocal,
      dcache.getLocally_ok hok]
    refine ⟨rfl, rfl, rfl, ?_⟩
    intro hinv hfit
    have hhit : ((g.mainCache.add key { b := bs }).get key).1 = some { b := bs } :=
      dcache.cache_add_get_hit hinv hfit
    refine ⟨hhit, ?_, ?_⟩
    · show (dcache.Group.Get { g with mainCache := g.mainCache.add key { b := bs } } key).value =
        { b := bs }
      unfold dcache.Group.Get
      rw [if_neg hkey]
      have hsplit : (g.mainCache.add key { b := bs }).get key =
          (((g.mainCache.add key { b := bs }).get key).1,
            ((g.mainCache.add key { b := bs }).get key).2) := rfl
      rw [hsplit, hhit]
    · show (dcache.Group.Get { g with mainCache := g.mainCache.add key { b := bs } } key).err =
        none
      unfold dcache.Group.Get
      rw [if_neg hkey]
      have hsplit : (g.mainCache.add key { b := bs }).get key =
          (((g.mainCache.add key { b := bs }).get key).1,
            ((g.mainCache.add key { b := bs }).get key).2) := rfl
      rw [hsplit, hhit]

/-- A concrete pickerless group whose loader serves "630" for every key. -/
def gLocalOk : dcache.Group :=
  { name := "scores"
    getter := fun _ => Except.ok [54, 51, 48]
    mainCache := { cacheBytes := 1000, lru := none }
    peers := none }

/-- Witness for the amended C2, exercising both conjuncts on concrete
groups: the remote-success path leaves the cache unchanged; the local path
populates it and the subsequent `Get` hits. -/
theorem C2_witness :
    ((gRemoteOk.Get "Tom").value = { b := [54, 51, 48] } ∧
      (gRemoteOk.Get "Tom").err = none ∧
      (gRemoteOk.Get "Tom").g.mainCache = gRemoteOk.mainCache) ∧
    (((gLocalOk.Get "Tom").g.mainCache.get "Tom").1 = some { b := [54, 51, 48] } ∧
      ((gLocalOk.Get "Tom").g.Get "Tom").value = { b := [54, 51, 48] } ∧
      ((gLocalOk.Get "Tom").g.Get "Tom").err = none) :=
  ⟨C2_populate_only_local.1 gRemoteOk "Tom"
      (fun _ => some (fun _ _ => Except.ok [54, 51, 48]))
      (fun _ _ => Except.ok [54, 51, 48]) [54, 51, 48]
      (by decide) rfl rfl rfl rfl,
    (C2_populate_only_local.2 gLocalOk "Tom" [54, 51, 48]
        (by decide) rfl (Or.inl rfl) rfl).2.2.2 trivial (by decide)⟩

namespace singleflight

variable {R : Type}

/-- Trace invariant for schedules whose `enter`s all precede their `remove`s:
at most one call ever exists (index 0); every thread status refers to it; a
completed call stores the first execution's result; the map entry, while
present, points to it. -/
def D (fnRes : Nat → R) (s : SFState R) : Prop :=
  (s.calls = [] ∧ s.execCount = 0 ∧ s.mapEntry = none ∧
    ∀ st ∈ s.threads, st = TStatus.pre)
  ∨ (s.calls = [CallPhase.running] ∧ s.execCount = 0 ∧ s.mapEntry = some 0 ∧
      ∀ st ∈ s.threads,
        st = TStatus.pre ∨ st = TStatus.exec 0 ∨ st = TStatus.waitingOn 0)
  ∨ (s.calls = [CallPhase.completed (fnRes 0)] ∧ s.execCount = 1 ∧
      (s.mapEntry = some 0 ∨ s.mapEntry = none) ∧
      ∀ st ∈ s.threads,
        st = TStatus.pre ∨ st = TStatus.exec 0 ∨ st = TStatus.waitingOn 0 ∨
          st = TStatus.owner 0 (fnRes 0) ∨ st = TStatus.done (fnRes 0))

/-- Strengthening of `D` that holds before the first `remove`: while no
removal has happened, an absent map entry means no call was ever created. -/
def P1 (fnRes : Nat → R) (s : SFState R) : Prop :=
  (s.mapEntry = none → s.calls = []) ∧ D fnRes s

theorem step_enter_P1 {fnRes : Nat → R} {s s' : SFState R} {t : Nat}
    (hP : P1 fnRes s) (hstep : stepFn fnRes s (Label.enter t) = some s') :
    P1 fnRes s' := by
  obtain ⟨hnone, hD⟩ := hP
  cases ht : s.threads[t]? with
  | none => simp [stepFn, ht] at hstep
  | some st =>
      cases st with
      | exec id => simp [stepFn, ht] at hstep
      | waitingOn id => simp [stepFn, ht] at hstep
      | owner id r => simp [stepFn, ht] at hstep
      | done r => simp [stepFn, ht] at hstep
      | pre =>
          cases hm : s.mapEntry with
          | some id =>
              simp only [stepFn, ht, hm] at hstep
              have hs' : s' =
                  { calls := s.calls, mapEntry := some id,
                    threads := s.threads.set t (TStatus.waitingOn id),
                    execCount := s.execCount } :=
                (Option.some_inj.mp hstep).symm
              subst hs'
              constructor
              · intro hcontra
                simp at hcontra
              · rcases hD with ⟨h1, h2, h3, h4⟩ | ⟨h1, h2, h3, h4⟩ | ⟨h1, h2, h3, h4⟩
                · rw [h3] at hm; exact absurd hm (by simp)
                · have hid : id = 0 := by
                    rw [h3] at hm; exact (Option.some_inj.mp hm).symm
                  subst hid
                  refine Or.inr (Or.inl ⟨h1, h2, rfl, ?_⟩)
                  intro st hst
                  rcases List.mem_or_eq_of_mem_set hst with hmem | rfl
                  · exact h4 st hmem
                  · exact Or.inr (Or.inr rfl)
                · have hid : id = 0 := by
                    rcases h3 with h3 | h3
                    · rw [h3] at hm; exact (Option.some_inj.mp hm).symm
                    · rw [h3] at hm; exact absurd hm (by simp)
                  subst hid
                  refine Or.inr (Or.inr ⟨h1, h2, Or.inl rfl, ?_⟩)
                  intro st hst
                  rcases List.mem_or_eq_of_mem_set hst with hmem | rfl
                  · exact h4 st hmem
                  · exact Or.inr (Or.inr (Or.inl rfl))
          | none =>
              simp only [stepFn, ht, hm] at hstep
              have hs' : s' =
                  { s with
                      calls := s.calls ++ [CallPhase.running],
                      mapEntry := some s.calls.length,
                      threads := s.threads.set t (TStatus.exec s.calls.length) } :=
                (Option.some_inj.mp hstep).symm
              subst hs'
              have hcalls : s.calls = [] := hnone hm
              constructor
              · intro hcontra
                have hcontra' : (some s.calls.length : Option Nat) = none := hcontra
                exact absurd hcontra' (by simp)
              · have h2 : s.execCount = 0 := by
                  rcases hD with ⟨_, h2, _, _⟩ | ⟨h1, _, _, _⟩ | ⟨h1, _, _, _⟩
                  · exact h2
                  · rw [hcalls] at h1; exact absurd h1 (by simp)
                  · rw [hcalls] at h1; exact absurd h1 (by simp)
                have h4 : ∀ st ∈ s.threads, st = TStatus.pre := by
                  rcases hD with ⟨_, _, _, h4⟩ | ⟨h1, _, _, _⟩ | ⟨h1, _, _, _⟩
                  · exact h4
                  · rw [hcalls] at h1; exact absurd h1 (by simp)
                  · rw [hcalls] at h1; exact absurd h1 (by simp)
                refine Or.inr (Or.inl ⟨?_, h2, ?_, ?_⟩)
                · show s.calls ++ [CallPhase.running] = [CallPhase.running]
                  rw [hcalls]; rfl
                · show (some s.calls.length : Option Nat) = some 0
                  rw [hcalls]; rfl
                · intro st hst
                  rcases List.mem_or_eq_of_mem_set hst with hmem | rfl
                  · exact Or.inl (h4 st hmem)
                  · refine Or.inr (Or.inl ?_)
                    rw [hcalls]; rfl

theorem step_complete_D {fnRes : Nat → R} {s s' : SFState R} {t : Nat}
    (hD : D fnRes s) (hstep : stepFn fnRes s (Label.complete t) = some s') :
    D fnRes s' ∧ s'.mapEntry = s.mapEntry ∧ s.calls ≠ [] := by
  cases ht : s.threads[t]? with
  | none => simp [stepFn, ht] at hstep
  | some st =>
      cases st with
      | pre => simp [stepFn, ht] at hstep
      | waitingOn id => simp [stepFn, ht] at hstep
      | owner id r => simp [stepFn, ht] at hstep
      | done r => simp [stepFn, ht] at hstep
      | exec id =>
          cases hc : s.calls[id]? with
          | none => simp [stepFn, ht, hc] at hstep
          | some ph =>
              cases ph with
              | completed r => simp [stepFn, ht, hc] at hstep
              | running =>
                  simp only [stepFn, ht, hc] at hstep
                  have hs' : s' =
                      { s with
                          calls := s.calls.set id (CallPhase.completed (fnRes s.execCount)),
                          threads := s.threads.set t (TStatus.owner id (fnRes s.execCount)),
                          execCount := s.execCount + 1 } :=
                    (Option.some_inj.mp hstep).symm
                  subst hs'
                  have hne : s.calls ≠ [] := by
                    intro hnil
                    rw [hnil] at hc
                    exact absurd hc (by simp)
                  refine ⟨?_, rfl, hne⟩
                  have hmem : TStatus.exec id ∈ s.threads := List.getElem?_mem ht
                  rcases hD with ⟨h1, h2, h3, h4⟩ | ⟨h1, h2, h3, h4⟩ | ⟨h1, h2, h3, h4⟩
                  · exact absurd h1 hne
                  · have hid : id = 0 := by
                      rcases h4 _ hmem with h | h | h
                      · exact absurd h (by simp)
                      · exact TStatus.exec.inj h
                      · exact absurd h (by simp)
                    subst hid
                    refine Or.inr (Or.inr ⟨?_, ?_, ?_, ?_⟩)
                    · show s.calls.set 0 (CallPhase.completed (fnRes s.execCount)) =
                        [CallPhase.completed (fnRes 0)]
                      rw [h1, h2]; rfl
                    · show s.execCount + 1 = 1
                      omega
                    · exact Or.inl h3
                    · intro st hst
                      rcases List.mem_or_eq_of_mem_set hst with hmem2 | rfl
                      · rcases h4 st hmem2 with h | h | h
                        · exact Or.inl h
                        · exact Or.inr (Or.inl h)
                        · exact Or.inr (Or.inr (Or.inl h))
                      · refine Or.inr (Or.inr (Or.inr (Or.inl ?_)))
                        rw [h2]
                  · exfalso
                    rw [h1] at hc
                    cases id with
                    | zero => simp at hc
                    | succ n => simp at hc

end singleflight

namespace singleflight

variable {R : Type}

theorem step_remove_D {fnRes : Nat → R} {s s' : SFState R} {t : Nat}
    (hD : D fnRes s) (hstep : stepFn fnRes s (Label.remove t) = some s') :
    D fnRes s' := by
  cases ht : s.threads[t]? with
  | none => simp [stepFn, ht] at hstep
  | some st =>
      cases st with
      | pre => simp [stepFn, ht] at hstep
      | exec id => simp [stepFn, ht] at hstep
      | waitingOn id => simp [stepFn, ht] at hstep
      | done r => simp [stepFn, ht] at hstep
      | owner id r =>
          simp only [stepFn, ht] at hstep
          have hs' : s' =
              { s with mapEntry := none, threads := s.threads.set t (TStatus.done r) } :=
            (Option.some_inj.mp hstep).symm
          subst hs'
          have hmem : TStatus.owner id r ∈ s.threads := List.getElem?_mem ht
          rcases hD with ⟨h1, h2, h3, h4⟩ | ⟨h1, h2, h3, h4⟩ | ⟨h1, h2, h3, h4⟩
          · have := h4 _ hmem; exact absurd this (by simp)
          · rcases h4 _ hmem with h | h | h
            · exact absurd h (by simp)
            · exact absurd h (by simp)
            · exact absurd h (by simp)
          · have hr : r = fnRes 0 := by
              rcases h4 _ hmem with h | h | h | h | h
              · exact absurd h (by simp)
              · exact absurd h (by simp)
              · exact absurd h (by simp)
              · exact (TStatus.owner.inj h).2
              · exact absurd h (by simp)
            subst hr
            refine Or.inr (Or.inr ⟨h1, h2, Or.inr rfl, ?_⟩)
            intro st hst
            rcases List.mem_or_eq_of_mem_set hst with hmem2 | rfl
            · exact h4 st hmem2
            · exact Or.inr (Or.inr (Or.inr (Or.inr rfl)))

theorem step_waiter_D {fnRes : Nat → R} {s s' : SFState R} {t : Nat}
    (hD : D fnRes s) (hstep : stepFn fnRes s (Label.waiterReturn t) = some s') :
    D fnRes s' ∧ s'.mapEntry = s.mapEntry ∧ s'.calls = s.calls := by
  cases ht : s.threads[t]? with
  | none => simp [stepFn, ht] at hstep
  | some st =>
      cases st with
      | pre => simp [stepFn, ht] at hstep
      | exec id => simp [stepFn, ht] at hstep
      | owner id r => simp [stepFn, ht] at hstep
      | done r => simp [stepFn, ht] at hstep
      | waitingOn id =>
          cases hc : s.calls[id]? with
          | none => simp [stepFn, ht, hc] at hstep
          | some ph =>
              cases ph with
              | running => simp [stepFn, ht, hc] at hstep
              | completed r =>
                  simp only [stepFn, ht, hc] at hstep
                  have hs' : s' = { s with threads := s.threads.set t (TStatus.done r) } :=
                    (Option.some_inj.mp hstep).symm
                  subst hs'
                  refine ⟨?_, rfl, rfl⟩
                  rcases hD with ⟨h1, h2, h3, h4⟩ | ⟨h1, h2, h3, h4⟩ | ⟨h1, h2, h3, h4⟩
                  · exfalso; rw [h1] at hc; simp at hc
                  · exfalso
                    rw [h1] at hc
                    cases id with
                    | zero => simp at hc
                    | succ n => simp at hc
                  · have hr : r = fnRes 0 := by
                      rw [h1] at hc
                      cases id with
                      | zero =>
                          have : CallPhase.completed (fnRes 0) = CallPhase.completed r := by
                            simpa using hc
                          exact (CallPhase.completed.inj this).symm
                      | succ n => simp at hc
                    subst hr
                    refine Or.inr (Or.inr ⟨h1, h2, h3, ?_⟩)
                    intro st hst
                    rcases List.mem_or_eq_of_mem_set hst with hmem2 | rfl
                    · exact h4 st hmem2
                    · exact Or.inr (Or.inr (Or.inr (Or.inr rfl)))

theorem step_P1 {fnRes : Nat → R} {s s' : SFState R} {lbl : Label}
    (hP : P1 fnRes s) (hnr : ∀ t, lbl ≠ Label.remove t)
    (hstep : stepFn fnRes s lbl = some s') : P1 fnRes s' := by
  cases lbl with
  | enter t => exact step_enter_P1 hP hstep
  | remove t => exact absurd rfl (hnr t)
  | complete t =>
      obtain ⟨hD', hmap, hne⟩ := step_complete_D hP.2 hstep
      refine ⟨?_, hD'⟩
      intro h
      rw [hmap] at h
      exact absurd (hP.1 h) hne
  | waiterReturn t =>
      obtain ⟨hD', hmap, hcalls⟩ := step_waiter_D hP.2 hstep
      refine ⟨?_, hD'⟩
      intro h
      rw [hmap] at h
      rw [hcalls]
      exact hP.1 h

theorem run_noEnter {fnRes : Nat → R} : ∀ {labels : List Label} {s s' : SFState R},
    D fnRes s → noEnter labels = true → run fnRes s labels = some s' →
    D fnRes s' := by
  intro labels
  induction labels with
  | nil =>
      intro s s' hD _ hrun
      have : s = s' := Option.some_inj.mp hrun
      rw [← this]; exact hD
  | cons lbl rest ih =>
      intro s s' hD hne hrun
      cases hstep : stepFn fnRes s lbl with
      | none => rw [run, hstep] at hrun; exact absurd hrun (by simp)
      | some s1 =>
          rw [run, hstep] at hrun
          have hD1 : D fnRes s1 := by
            cases lbl with
            | enter t => rw [noEnter] at hne; exact absurd hne (by simp)
            | complete t => exact (step_complete_D hD hstep).1
            | remove t => exact step_remove_D hD hstep
            | waiterReturn t => exact (step_waiter_D hD hstep).1
          have hne' : noEnter rest = true := by
            cases lbl with
            | enter t => rw [noEnter] at hne; exact absurd hne (by simp)
            | complete t => exact hne
            | remove t => exact hne
            | waiterReturn t => exact hne
          exact ih hD1 hne' hrun

theorem run_ebr {fnRes : Nat → R} : ∀ {labels : List Label} {s s' : SFState R},
    P1 fnRes s → entersBeforeRemoves labels = true →
    run fnRes s labels = some s' → D fnRes s' := by
  intro labels
  induction labels with
  | nil =>
      intro s s' hP _ hrun
      have : s = s' := Option.some_inj.mp hrun
      rw [← this]; exact hP.2
  | cons lbl rest ih =>
      intro s s' hP hebr hrun
      cases hstep : stepFn fnRes s lbl with
      | none => rw [run, hstep] at hrun; exact absurd hrun (by simp)
      | some s1 =>
          rw [run, hstep] at hrun
          cases lbl with
          | remove t =>
              have hboth : (noEnter rest && entersBeforeRemoves rest) = true := hebr
              have hne : noEnter rest = true := by
                rw [Bool.and_eq_true] at hboth
                exact hboth.1
              exact run_noEnter (step_remove_D hP.2 hstep) hne hrun
          | enter t =>
              have hebr2 : entersBeforeRemoves rest = true := hebr
              have hnr : ∀ u, Label.enter t ≠ Label.remove u := fun u h => Label.noConfusion h
              have hP1 := step_P1 hP hnr hstep
              exact ih hP1 hebr2 hrun
          | complete t =>
              have hebr2 : entersBeforeRemoves rest = true := hebr
              have hnr : ∀ u, Label.complete t ≠ Label.remove u := fun u h => Label.noConfusion h
              have hP1 := step_P1 hP hnr hstep
              exact ih hP1 hebr2 hrun
          | waiterReturn t =>
              have hebr2 : entersBeforeRemoves rest = true := hebr
              have hnr : ∀ u, Label.waiterReturn t ≠ Label.remove u := fun u h => Label.noConfusion h
              have hP1 := step_P1 hP hnr hstep
              exact ih hP1 hebr2 hrun

theorem init_P1 (fnRes : Nat → R) (n : Nat) : P1 fnRes (init R n) := by
  refine ⟨fun _ => rfl, Or.inl ⟨rfl, rfl, rfl, ?_⟩⟩
  intro st hst
  exact List.eq_of_mem_replicate hst

theorem D_conclusions {fnRes : Nat → R} {s : SFState R} (hD : D fnRes s) :
    (∀ r, TStatus.done r ∈ s.threads → r = fnRes 0) ∧ s.execCount ≤ 1 ∧
      ((∃ r, TStatus.done r ∈ s.threads) → s.execCount = 1) := by
  rcases hD with ⟨h1, h2, h3, h4⟩ | ⟨h1, h2, h3, h4⟩ | ⟨h1, h2, h3, h4⟩
  · refine ⟨?_, by omega, ?_⟩
    · intro r hr; exact absurd (h4 _ hr) (by simp)
    · rintro ⟨r, hr⟩; exact absurd (h4 _ hr) (by simp)
  · refine ⟨?_, by omega, ?_⟩
    · intro r hr
      rcases h4 _ hr with h | h | h
      · exact absurd h (by simp)
      · exact absurd h (by simp)
      · exact absurd h (by simp)
    · rintro ⟨r, hr⟩
      rcases h4 _ hr with h | h | h
      · exact absurd h (by simp)
      · exact absurd h (by simp)
      · exact absurd h (by simp)
  · refine ⟨?_, by omega, fun _ => h2⟩
    intro r hr
    rcases h4 _ hr with h | h | h | h | h
    · exact absurd h (by simp)
    · exact absurd h (by simp)
    · exact absurd h (by simp)
    · exact absurd h (by simp)
    · exact TStatus.done.inj h

end singleflight

/-- C9: in the single-flight coordinator (modelled from the spec, its source
being absent from the snapshot), for any schedule of N `Do(key)` callers in
which every arrival (`enter`) precedes every call removal — the formalisation
of "N concurrent Do calls" — the function is executed at most once, every
caller that has returned received the first (and only) execution's result,
and once any caller has returned the execution count is exactly one; and a
`Do` that arrives after the in-flight call has completed and been removed
triggers a fresh execution: the demonstration schedule runs two sequential
full `Do` cycles and ends with execution count 2, the second caller receiving
the second execution's result. -/
theorem C9_single_flight_coalescing :
    (∀ (R : Type) (fnRes : Nat → R) (n : Nat) (labels : List singleflight.Label)
        (s : singleflight.SFState R),
      singleflight.run fnRes (singleflight.init R n) labels = some s →
      singleflight.entersBeforeRemoves labels = true →
      (∀ r, singleflight.TStatus.done r ∈ s.threads → r = fnRes 0) ∧
        s.execCount ≤ 1 ∧
        ((∃ r, singleflight.TStatus.done r ∈ s.threads) → s.execCount = 1)) ∧
    singleflight.run (fun k => k) (singleflight.init Nat 2)
        [.enter 0, .complete 0, .remove 0, .enter 1, .complete 1, .remove 1] =
      some { calls := [.completed 0, .completed 1], mapEntry := none,
             threads := [.done 0, .done 1], execCount := 2 } := by
  constructor
  · intro R fnRes n labels s hrun hebr
    exact singleflight.D_conclusions
      (singleflight.run_ebr (singleflight.init_P1 fnRes n) hebr hrun)
  · decide

/-- Witness for C9 on a concrete three-caller schedule in which two callers
coalesce on one execution. -/
theorem C9_witness :
    ({ calls := [.completed 0], mapEntry := none, threads := [.done 0, .done 0],
        execCount := 1 } : singleflight.SFState Nat).execCount = 1 :=
  (C9_single_flight_coalescing.1 Nat (fun k => k) 2
      [.enter 0, .enter 1, .complete 0, .waiterReturn 1, .remove 0]
      { calls := [.completed 0], mapEntry := none,
        threads := [.done 0, .done 0], execCount := 1 }
      (by decide) (by decide)).2.2 ⟨0, by decide⟩
